import Mathlib

/-!
Shallow embedding of the message-resolution pipeline of `notify.py`
(claudevoice-macos): the per-line sanitizer `_clean_line` / `_strip_paths`,
the sentence segmenter `_split_sentences` / `_take_sentences` /
`_first_sentence`, the transcript summarizer `_extract_summary`, the
personality template picker `_pick_template`, and the top-level
decision tree `resolve_message`.

Modelling conventions:
* Strings are Lean `String`s; the character-level work is done on
  `List Char` (`String.data`).  The Python regex character class `\s`
  is modelled by the six ASCII whitespace characters and `\w` by ASCII
  word characters; the source only ever feeds ASCII template text and
  the claims are settled inside this universe.
* Each `re.sub` call of the source is translated into a dedicated
  recursive scanner that implements exactly the leftmost /
  greedy-or-lazy matching behaviour of that particular pattern.
  Scanners that skip a variable number of characters take a fuel
  argument (`fuel = length of the input + 1` at the wrapper) so that
  every definition is structurally recursive and kernel-computable.
* `random.choice` is modelled by an injected list of natural draws:
  each call consumes the head draw `d` and picks index `d % len`.
* File access of `_extract_summary` is modelled by a map from paths to
  an optional list of transcript lines (`none` = unreadable file, which
  Python surfaces as `OSError`); each line is either blank, malformed
  JSON (`json.loads` raises `JSONDecodeError`), or a parsed JSON value.
* Python exceptions that escape a function are modelled with `Except`:
  `AttributeError` (attribute access on a non-dict) and `TypeError`
  (iterating a non-iterable / `re.sub` on a non-string) are NOT caught
  by `_extract_summary`'s `except (OSError, JSONDecodeError, KeyError)`
  handler and so propagate.
-/

namespace Notify

/-! ### Character classes (ASCII fragment of the Python regex classes) -/

/-- ASCII fragment of the Python regex class `\s`. -/
def isWsC (c : Char) : Bool :=
  c = ' ' || c = '\t' || c = '\n' || c = '\r' || c = '\x0b' || c = '\x0c'

/-- Sentence-ending punctuation `[.!?]` used by `_split_sentences`. -/
def isPunctC (c : Char) : Bool := c = '.' || c = '!' || c = '?'

/-- ASCII fragment of the Python regex class `\w`. -/
def isWordC (c : Char) : Bool :=
  ('a' ≤ c && c ≤ 'z') || ('A' ≤ c && c ≤ 'Z') || ('0' ≤ c && c ≤ '9') || c = '_'

/-- The path-continuation class of `_strip_paths`: word chars, dot, dash, slash. -/
def isPathC (c : Char) : Bool := isWordC c || c = '.' || c = '-' || c = '/'

/-- The backtick character (U+0060). -/
def btick : Char := Char.ofNat 96

/-- ASCII lower-casing, the fragment of `str.lower` exercised here. -/
def lowC (c : Char) : Char :=
  if 'A' ≤ c && c ≤ 'Z' then Char.ofNat (c.toNat + 32) else c

/-! ### Strip / lower / join primitives on `List Char` -/

/-- Remove trailing whitespace (the right half of `str.strip`). -/
def rstripL : List Char → List Char
  | [] => []
  | c :: rest =>
    let r := rstripL rest
    if r = [] && isWsC c then [] else c :: r

/-- Python `str.strip()` on a character list. -/
def stripL (l : List Char) : List Char := rstripL (l.dropWhile isWsC)

/-- Python `str.lower()` (ASCII fragment) on a character list. -/
def lowerL (l : List Char) : List Char := l.map lowC

/-- Join a list of character lists with single spaces (`" ".join`). -/
def joinSpL : List (List Char) → List Char
  | [] => []
  | [p] => p
  | p :: rest => p ++ ' ' :: joinSpL rest

/-- Does `l` contain a non-whitespace character? -/
def hasNW (l : List Char) : Bool := l.any (fun c => !(isWsC c))

/-! ### Sentence segmentation: `re.split(r"(?<=[.!?])\s+", text.strip())`

`sentAux` scans character by character.  In scanning mode (`skip =
false`) the accumulator `acc` holds the current piece reversed, so
`acc.head?` is the character just before the scan position: a split
fires exactly when the current character is whitespace and that
previous character is `.`, `!` or `?` (the regex lookbehind).  After a
fire the maximal whitespace run — the greedy `\s+` — is consumed in
skipping mode (`skip = true`). -/

/-- Does the delimiter `(?<=[.!?])\s+` start here? (`acc` = reversed prefix). -/
def fireB (acc : List Char) (c : Char) : Bool :=
  isWsC c && (match acc with | p :: _ => isPunctC p | [] => false)

def sentAux : Bool → List Char → List Char → List (List Char)
  | _, [], acc => [acc.reverse]
  | true, c :: rest, acc =>
    if isWsC c then sentAux true rest acc else sentAux false rest (c :: acc)
  | false, c :: rest, acc =>
    if fireB acc c then acc.reverse :: sentAux true rest []
    else sentAux false rest (c :: acc)

/-- The raw pieces produced by `re.split(r"(?<=[.!?])\s+", ·)`. -/
def rawPieces (l : List Char) : List (List Char) := sentAux false l []

/-- `_split_sentences` on a character list:
`[s.strip() for s in re.split(r"(?<=[.!?])\s+", text.strip()) if s.strip()]`. -/
def split_sentencesL (l : List Char) : List (List Char) :=
  ((rawPieces (stripL l)).map stripL).filter (fun p => p ≠ [])

/-- `_take_sentences` on a character list. -/
def take_sentencesL (l : List Char) (maxSentences : Nat) : List Char :=
  let sentences := split_sentencesL l
  if sentences = [] then stripL l else joinSpL (sentences.take maxSentences)

/-- `_first_sentence` on a character list. -/
def first_sentenceL (l : List Char) : List Char :=
  match split_sentencesL l with
  | s :: _ => s
  | [] => stripL l

/-- `_split_sentences(text)`. -/
def split_sentences (text : String) : List String :=
  (split_sentencesL text.data).map String.mk

/-- `_take_sentences(text, max_sentences)` (the source default is 3). -/
def take_sentences (text : String) (maxSentences : Nat := 3) : String :=
  String.mk (take_sentencesL text.data maxSentences)

/-- `_first_sentence(text)`. -/
def first_sentence (text : String) : String := String.mk (first_sentenceL text.data)

/-! ### Generic string helpers mirroring Python `str` methods -/

/-- Core of Python `str.replace` for the nonempty pattern `p :: ps`:
leftmost non-overlapping matches, scanning left to right.  `fuel`
bounds the recursion; every wrapper passes `length + 1` which is
always enough because each step consumes at least one character. -/
def replCore (p : Char) (ps rep : List Char) : Nat → List Char → List Char
  | _, [] => []
  | 0, l => l
  | fuel + 1, c :: rest =>
    if (p :: ps).isPrefixOf (c :: rest) then rep ++ replCore p ps rep fuel (rest.drop ps.length)
    else c :: replCore p ps rep fuel rest

/-- Python `s.replace(pat, rep)` (for the nonempty literal patterns used
by the source; an empty pattern is never passed and maps to the identity). -/
def replaceS (s pat rep : String) : String :=
  match pat.data with
  | [] => s
  | p :: ps => String.mk (replCore p ps rep.data (s.data.length + 1) s.data)

/-- Is `pat` a contiguous substring of `l`? (Python `pat in s`). -/
def subL (pat l : List Char) : Bool := (l.tails).any (fun t => pat.isPrefixOf t)

/-- Python `pat in s` for strings. -/
def containsS (s pat : String) : Bool := subL pat.data s.data

/-- The part of `l` before the first occurrence of the nonempty pattern
`p :: ps`; the whole list if there is none.  This is
`s.split(pat)[0]` of Python. -/
def beforeFirstL (p : Char) (ps : List Char) : List Char → List Char
  | [] => []
  | c :: rest =>
    if (p :: ps).isPrefixOf (c :: rest) then []
    else c :: beforeFirstL p ps rest

/-- Python `s.split(pat)[0]` for a nonempty literal `pat`. -/
def beforeFirstS (s pat : String) : String :=
  match pat.data with
  | [] => s
  | p :: ps => String.mk (beforeFirstL p ps s.data)

/-- Python `s.rstrip(".")`: drop all trailing dots. -/
def rstripDotsL : List Char → List Char
  | [] => []
  | c :: rest =>
    let r := rstripDotsL rest
    if r = [] && c = '.' then [] else c :: r

def stripS (s : String) : String := String.mk (stripL s.data)

def lowerS (s : String) : String := String.mk (lowerL s.data)

/-- Python `s.startswith(pre)`. -/
def startsWithS (s pre : String) : Bool := pre.data.isPrefixOf s.data

/-! ### The sanitizer `_clean_line` / `_strip_paths`

Each stage is one `re.sub` of the source, in the source's order. -/

/-- Stage 1, `re.sub(r"`([^`]+)`", r"\1", line)`: replace a backtick
pair with nonempty backtick-free content by the content.  State
machine: `none` = outside any candidate span; `some mid` = a backtick
was opened and `mid` holds the (reversed) content read so far.  An
immediately following backtick (empty content) or the end of input
means the opening backtick matches nothing, exactly as the regex
(whose content class excludes backticks) backtracks. -/
def spliceAux : Option (List Char) → List Char → List Char
  | none, [] => []
  | some mid, [] => btick :: mid.reverse
  | none, c :: rest =>
    if c = btick then spliceAux (some []) rest else c :: spliceAux none rest
  | some mid, c :: rest =>
    if c = btick then
      if mid = [] then btick :: spliceAux (some []) rest
      else mid.reverse ++ spliceAux none rest
    else spliceAux (some (c :: mid)) rest

def spliceBackticks (l : List Char) : List Char := spliceAux none l

/-- Stage 2, `re.sub(r"https?://\S+", "", line)`: at each position try
`https://` then `http://`, each followed by a nonempty greedy run of
non-whitespace; on a match drop it and continue after it. -/
def removeUrls : Nat → List Char → List Char
  | _, [] => []
  | 0, l => l
  | fuel + 1, c :: rest =>
    let l := c :: rest
    let run8 := (l.drop 8).takeWhile (fun x => !(isWsC x))
    let run7 := (l.drop 7).takeWhile (fun x => !(isWsC x))
    if "https://".data.isPrefixOf l && run8 ≠ [] then
      removeUrls fuel (l.drop (8 + run8.length))
    else if "http://".data.isPrefixOf l && run7 ≠ [] then
      removeUrls fuel (l.drop (7 + run7.length))
    else c :: removeUrls fuel rest

/-- Stage 3, `re.sub(r"\[([^\]]+)\]\([^)]+\)", r"\1", line)`: markdown
link to its label.  The two character classes exclude their closing
brackets, so the greedy runs are exactly "until the next `]`/`)`" with
no further backtracking. -/
def replaceLinks : Nat → List Char → List Char
  | _, [] => []
  | 0, l => l
  | fuel + 1, c :: rest =>
    if c = '[' then
      let lab := rest.takeWhile (fun x => x ≠ ']')
      let afterLab := rest.drop (lab.length + 1)
      let tgt := afterLab.drop 1 |>.takeWhile (fun x => x ≠ ')')
      let afterTgt := afterLab.drop 1 |>.drop (tgt.length + 1)
      if lab ≠ [] && lab.length < rest.length && afterLab.headD ' ' = '(' &&
          tgt ≠ [] && tgt.length < (afterLab.drop 1).length then
        lab ++ replaceLinks fuel afterTgt
      else c :: replaceLinks fuel rest
    else c :: replaceLinks fuel rest

/-- Stage 4, `re.sub(r"\*{1,2}", "", line)`: matches tile the asterisks
in chunks of one or two, so the substitution deletes every asterisk. -/
def removeStars (l : List Char) : List Char := l.filter (fun c => c ≠ '*')

/-- Stage 5, `re.sub(r"^[#>\-*\s]+", "", line)` (anchored at the start
of the string; the lines fed to it never contain a newline). -/
def isLeadMdC (c : Char) : Bool := c = '#' || c = '>' || c = '-' || c = '*' || isWsC c

def stripLeadMd (l : List Char) : List Char := l.dropWhile isLeadMdC

/-- `_strip_paths` stage 1 (the Unix absolute path pattern: a slash with
a negative word-character lookbehind, then one or more path characters):
a slash not preceded by a word character, followed by a nonempty
greedy run of path characters.  `prev` is the character before the
scan position in the original string (the regex lookbehind); after a
match the run is nonempty and consists of path characters, any of
which blocks a following-slash match only through `prev` being a word
character, so `prev` is set to the run's last character. -/
def unixAux (prev : Option Char) : Nat → List Char → List Char
  | _, [] => []
  | 0, l => l
  | fuel + 1, c :: rest =>
    if c = '/' && !(match prev with | some p => isWordC p | none => false) &&
        rest.takeWhile isPathC ≠ [] then
      let run := rest.takeWhile isPathC
      unixAux (some (run.getLastD '/')) fuel (rest.drop run.length)
    else c :: unixAux (some c) fuel rest

def stripPathsUnix (l : List Char) : List Char := unixAux none (l.length + 1) l

/-- `_strip_paths` stage 2 (the dotted relative path pattern: one or two
literal dots, a slash, then one or more path characters):
one or two dots (greedy, i.e. two preferred), a slash, a nonempty
greedy path run. -/
def dottedAux : Nat → List Char → List Char
  | _, [] => []
  | 0, l => l
  | fuel + 1, c :: rest =>
    if c = '.' then
      match rest with
      | '.' :: '/' :: r2 =>
        let run := r2.takeWhile isPathC
        if run ≠ [] then dottedAux fuel (r2.drop run.length)
        else c :: dottedAux fuel rest
      | '/' :: r2 =>
        let run := r2.takeWhile isPathC
        if run ≠ [] then dottedAux fuel (r2.drop run.length)
        else c :: dottedAux fuel rest
      | _ => c :: dottedAux fuel rest
    else c :: dottedAux fuel rest

def stripPathsDotted (l : List Char) : List Char := dottedAux (l.length + 1) l

/-- The dangling prepositions of `_strip_paths` stage 3. -/
def prepWords : List (List Char) := ["in".data, "at".data, "from".data, "to".data, "of".data, "on".data]

/-- `_strip_paths` stage 3,
`re.sub(r"\s+(?:in|at|from|to|of|on)\s*$", "", text, flags=re.IGNORECASE)`.
A match exists iff, after discarding trailing whitespace (swallowed by
the greedy `\s*` before `$`), the text ends in one of the preposition
words (case-insensitively — no word is a suffix of another, so at most
one fits) preceded by at least one whitespace character; the leftmost
greedy `\s+` then swallows that whole whitespace run.  Everything from
that run on is removed. -/
def prepStripL (l : List Char) : List Char :=
  let r := l.reverse
  let core := r.dropWhile isWsC
  match prepWords.find? (fun w => w.reverse.isPrefixOf (core.map lowC)) with
  | some w =>
    let afterPrep := core.drop w.length
    let ws2 := afterPrep.takeWhile isWsC
    if ws2 ≠ [] then (afterPrep.drop ws2.length).reverse else l
  | none => l

/-- `_strip_paths(text)`. -/
def strip_pathsL (l : List Char) : List Char :=
  prepStripL (stripPathsDotted (stripPathsUnix l))

def strip_paths (text : String) : String := String.mk (strip_pathsL text.data)

/-- Final stage of `_clean_line`: `re.sub(r"\s+", " ", line).strip()`.
`collapseAux` replaces each maximal whitespace run by a single space
(`prevWs` remembers whether the previous character was whitespace). -/
def collapseAux : Bool → List Char → List Char
  | _, [] => []
  | prevWs, c :: rest =>
    if isWsC c then
      if prevWs then collapseAux true rest else ' ' :: collapseAux true rest
    else c :: collapseAux false rest

def collapseWsL (l : List Char) : List Char := stripL (collapseAux false l)

/-- `_clean_line(line)`: the source's regex chain in order — inline
code spans, URLs, markdown links, emphasis markers, leading structural
markers, file paths, whitespace collapse. -/
def clean_lineL (l : List Char) : List Char :=
  collapseWsL (strip_pathsL (stripLeadMd (removeStars
    (replaceLinks (l.length + 1) (removeUrls (l.length + 1) (spliceBackticks l))))))

def clean_line (line : String) : String := String.mk (clean_lineL line.data)

/-! ### `_get_speakable_lines` and `_clean_prompt` -/

/-- `re.sub(r"```[\s\S]*?```", "", text)`: drop the leftmost fenced
block (opening triple backtick, lazily shortest content, closing triple
backtick) and continue after it.  If some opening fence has no closing
fence after it, no later opening can have one either, so the rest is
left unchanged. -/
def fenceMark : List Char := [btick, btick, btick]

/-- Index of the first occurrence of `fenceMark`, if any. -/
def fenceIdx : List Char → Option Nat
  | [] => none
  | c :: rest =>
    if fenceMark.isPrefixOf (c :: rest) then some 0
    else (fenceIdx rest).map Nat.succ

def fencesAux : Nat → List Char → List Char
  | _, [] => []
  | 0, l => l
  | fuel + 1, l =>
    match fenceIdx l with
    | none => l
    | some i =>
      let rest := l.drop (i + 3)
      match fenceIdx rest with
      | none => l
      | some j => l.take i ++ fencesAux fuel (rest.drop (j + 3))

def removeFences (l : List Char) : List Char := fencesAux (l.length + 1) l

/-- Python `str.splitlines` restricted to the terminators `\n`, `\r\n`
and `\r` (the transcripts and prompts in scope contain no exotic
vertical whitespace). -/
def splitLinesAux : List Char → List Char → List (List Char)
  | [], acc => if acc = [] then [] else [acc.reverse]
  | '\r' :: '\n' :: rest, acc => acc.reverse :: splitLinesAux rest []
  | '\n' :: rest, acc => acc.reverse :: splitLinesAux rest []
  | '\r' :: rest, acc => acc.reverse :: splitLinesAux rest []
  | c :: rest, acc => splitLinesAux rest (c :: acc)

def splitLinesL (l : List Char) : List (List Char) := splitLinesAux l []

/-- `_get_speakable_lines(text)`: drop fenced code blocks, clean each
line, keep the lines longer than five characters. -/
def get_speakable_linesL (l : List Char) : List (List Char) :=
  ((splitLinesL (removeFences l)).map clean_lineL).filter (fun c => 5 < c.length)

def get_speakable_lines (text : String) : List String :=
  (get_speakable_linesL text.data).map String.mk

/-- `_clean_prompt(prompt)`. -/
def clean_promptL (l : List Char) : List Char :=
  match get_speakable_linesL l with
  | [] => []
  | first :: _ => first_sentenceL first

def clean_prompt (prompt : String) : String := String.mk (clean_promptL prompt.data)

/-! ### Transcript model and `_extract_summary`

A transcript file is `none` (unreadable: Python raises `OSError`,
which the function catches) or a list of lines; each line is blank
(skipped), malformed JSON (`json.loads` raises `JSONDecodeError`,
caught by the handler, so the function returns `""`), or a parsed JSON
value `PyVal`.  `entry.get` on a parsed value that is not an object
raises `AttributeError`, iterating a number/bool/null raises
`TypeError`, iterating a nonempty string or object hands a
string to `block.get` which raises `AttributeError` — none of which
the handler `except (OSError, json.JSONDecodeError, KeyError)`
catches, so they propagate out of `_extract_summary`. -/

inductive PyVal where
  | null
  | bool (b : Bool)
  | num (n : Int)
  | str (s : String)
  | list (xs : List PyVal)
  | dict (kvs : List (String × PyVal))

inductive TLine where
  | blank
  | malformed
  | parsed (v : PyVal)

inductive PyErr where
  | attributeError
  | typeError
  deriving DecidableEq

instance {ε α : Type} [DecidableEq ε] [DecidableEq α] :
    DecidableEq (Except ε α) := fun x y =>
  match x, y with
  | .ok a, .ok b =>
    if h : a = b then isTrue (by rw [h])
    else isFalse (by intro he; cases he; exact h rfl)
  | .error a, .error b =>
    if h : a = b then isTrue (by rw [h])
    else isFalse (by intro he; cases he; exact h rfl)
  | .ok _, .error _ => isFalse (by intro he; cases he)
  | .error _, .ok _ => isFalse (by intro he; cases he)

/-- Python truthiness of the values in scope. -/
def pyTruthy : PyVal → Bool
  | .null => false
  | .bool b => b
  | .num n => n ≠ 0
  | .str s => s ≠ ""
  | .list xs => !xs.isEmpty
  | .dict kvs => !kvs.isEmpty

/-- Dictionary field lookup (`d[k]` / the found half of `d.get(k)`). -/
def pyLookup (kvs : List (String × PyVal)) (k : String) : Option PyVal :=
  match kvs.find? (fun kv => kv.1 = k) with
  | some kv => some kv.2
  | none => none

/-- Outcome of the scanning loop of `_extract_summary`:
an uncaught exception, a caught one (`JSONDecodeError` from a
malformed line or `KeyError` from `block["text"]`, making the function
return `""`), or normal completion with the final `last_text`. -/
inductive ScanR where
  | raised (e : PyErr)
  | caught
  | done (lastText : PyVal)

/-- The block loop: `for block in content: if block.get("type") == "text":
last_text = block["text"]`. -/
def scanBlocks : List PyVal → PyVal → ScanR
  | [], lt => .done lt
  | b :: rest, lt =>
    match b with
    | .dict kvs =>
      match pyLookup kvs "type" with
      | some (.str t) =>
        if t = "text" then
          match pyLookup kvs "text" with
          | some tv => scanBlocks rest tv
          | none => .caught
        else scanBlocks rest lt
      | _ => scanBlocks rest lt
    | _ => .raised .attributeError

/-- Iterating `message.get("content", [])`: lists iterate their
elements; strings iterate their characters (each a string, so a
nonempty string makes `block.get` raise `AttributeError`); dicts
iterate their keys (strings, same effect); numbers, booleans and
`None` are not iterable (`TypeError`). -/
def iterContent : PyVal → PyVal → ScanR
  | .list bs, lt => scanBlocks bs lt
  | .str s, lt => if s = "" then .done lt else .raised .attributeError
  | .dict kvs, lt => if kvs.isEmpty then .done lt else .raised .attributeError
  | _, _ => .raised .typeError

/-- One parsed line of the scan: skip non-assistant entries, else walk
`entry.get("message", {}).get("content", [])`. -/
def scanEntry (v : PyVal) (lt : PyVal) : ScanR :=
  match v with
  | .dict kvs =>
    (match pyLookup kvs "type" with
     | some (.str t) =>
       if t = "assistant" then
         match (pyLookup kvs "message").getD (.dict []) with
         | .dict mkv => iterContent ((pyLookup mkv "content").getD (.list [])) lt
         | _ => .raised .attributeError
       else .done lt
     | _ => .done lt)
  | _ => .raised .attributeError

/-- The line loop of `_extract_summary`. -/
def scanLines : List TLine → PyVal → ScanR
  | [], lt => .done lt
  | .blank :: rest, lt => scanLines rest lt
  | .malformed :: _, _ => .caught
  | .parsed v :: rest, lt =>
    match scanEntry v lt with
    | .done lt2 => scanLines rest lt2
    | r => r

/-- The post-scan reduction of `_extract_summary`: speakable lines of
the last assistant text, joined with spaces, reduced to two sentences. -/
def reduceLastText (s : String) : String :=
  match get_speakable_linesL s.data with
  | [] => ""
  | lines => String.mk (take_sentencesL (joinSpL lines) 2)

/-- `_extract_summary(transcript_path)` over the modelled file content. -/
def extract_summary (file : Option (List TLine)) : Except PyErr String :=
  match file with
  | none => .ok ""
  | some lines =>
    match scanLines lines (.str "") with
    | .raised e => .error e
    | .caught => .ok ""
    | .done lt =>
      if pyTruthy lt then
        match lt with
        | .str s => .ok (reduceLastText s)
        | _ => .error .typeError
      else .ok ""

/-! ### Events, configuration, personality and `resolve_message`

The input event is the JSON object documented by the source's hook
interface; each field is optional (`event.get(k, default)`), with the
documented type.  The configuration contributes only its `messages`
mapping here (`config.get("messages", DEFAULT_CONFIG["messages"])`).
The personality is the `{message_key: [template, ...]}` mapping;
`random.choice` draws are injected as a list of naturals, one draw
consumed per `random.choice` call (index = draw mod length).  File
access for the `Stop` branch is injected as a map from paths to
modelled transcript files. -/

structure Event where
  hook_event_name : Option String := none
  prompt : Option String := none
  stop_hook_active : Option Bool := none
  transcript_summary : Option String := none
  transcript_path : Option String := none
  notification_type : Option String := none
  message : Option String := none

abbrev Msgs := List (String × String)

structure Config where
  messages : Option Msgs := none

/-- `DEFAULT_CONFIG["messages"]`. -/
def defaultMessages : Msgs :=
  [("prompt_submit", "On it."),
   ("stop", "Done. {summary}"),
   ("notification_permission_prompt", "Need your permission. {message}"),
   ("notification_idle_prompt", "Waiting for your input."),
   ("notification_default", "{message}")]

/-- Python `messages.get(k, d)`. -/
def msgsGet (m : Msgs) (k d : String) : String :=
  match m.find? (fun kv => kv.1 = k) with
  | some kv => kv.2
  | none => d

abbrev Pers := List (String × List String)

/-- Python `personality.get(k)` flattened to a list (`None` = `[]`;
`_pick_template` treats both as "no templates"). -/
def persGet (p : Pers) (k : String) : List String :=
  match p.find? (fun kv => kv.1 = k) with
  | some kv => kv.2
  | none => []

abbrev FS := String → Option (List TLine)

/-- `_pick_template(personality, key)`: `random.choice` consumes one
draw iff the template list is nonempty (only then does Python call it). -/
def pick_template (pers : Pers) (k : String) (draws : List Nat) :
    Option String × List Nat :=
  let ts := persGet pers k
  if ts.isEmpty then (none, draws)
  else (some (ts.getD (draws.headD 0 % ts.length) ""), draws.tail)

/-- Truthiness of `template` after `_pick_template` (`if template:`). -/
def truthyO : Option String → Bool
  | some s => s ≠ ""
  | none => false

/-- The config-only tail of the `UserPromptSubmit` branch. -/
def rmPromptCfg (prompt : String) (msgs : Msgs) : Option String :=
  let fb := msgsGet msgs "prompt_submit" "{prompt}"
  if containsS fb "{prompt}" then
    if prompt = "" then some (msgsGet msgs "prompt_submit_fallback" "On it.")
    else some (take_sentences (replaceS fb "{prompt}" prompt) 3)
  else some fb

/-- The `UserPromptSubmit` branch of `resolve_message`. -/
def rmPrompt (ev : Event) (msgs : Msgs) (pers : Pers) (draws : List Nat) :
    Option String :=
  let prompt := clean_prompt (ev.prompt.getD "")
  let pt := pick_template pers "prompt_submit" draws
  match pt.1 with
  | some t =>
    if t ≠ "" then
      if containsS t "{prompt}" && prompt = "" then
        let noPlaceholder :=
          (persGet pers "prompt_submit").filter (fun x => !containsS x "{prompt}")
        if noPlaceholder.isEmpty then some (msgsGet msgs "prompt_submit" "On it.")
        else some (noPlaceholder.getD (pt.2.headD 0 % noPlaceholder.length) "")
      else some (take_sentences (replaceS t "{prompt}" prompt) 3)
    else rmPromptCfg prompt msgs
  | none => rmPromptCfg prompt msgs

/-- The summary determination of the `Stop` branch: the inline
`transcript_summary` if nonempty, else the transcript extraction when
a path is present, else `""`. -/
def stopSummaryE (ev : Event) (fs : FS) : Except PyErr String :=
  let s0 := ev.transcript_summary.getD ""
  if s0 = "" then
    let tp := ev.transcript_path.getD ""
    if tp = "" then .ok "" else extract_summary (fs tp)
  else .ok s0

/-- The config-only tail of the `Stop` branch, with the
stutter-avoidance comparison against the static template's fixed
text before the `{summary}` placeholder. -/
def rmStopCfg (summary : String) (msgs : Msgs) : Option String :=
  let t := msgsGet msgs "stop" "{summary}"
  if summary = "" then some (take_sentences (stripS (replaceS t "{summary}" "")) 3)
  else
    let pfx := lowerS (String.mk (rstripDotsL (stripL (beforeFirstS t "{summary}").data)))
    let text :=
      if pfx ≠ "" && startsWithS (lowerS summary) pfx then summary
      else replaceS t "{summary}" summary
    some (take_sentences text 3)

/-- The `Stop` branch of `resolve_message`. -/
def rmStop (ev : Event) (msgs : Msgs) (pers : Pers) (draws : List Nat) (fs : FS) :
    Except PyErr (Option String) :=
  if ev.stop_hook_active.getD false then .ok none
  else
    match stopSummaryE ev fs with
    | .error e => .error e
    | .ok summary =>
      let pt := pick_template pers "stop" draws
      match pt.1 with
      | some t =>
        if t ≠ "" then
          let text :=
            if summary = "" then stripS (replaceS t "{summary}" "")
            else replaceS t "{summary}" summary
          .ok (some (take_sentences text 3))
        else .ok (rmStopCfg summary msgs)
      | none => .ok (rmStopCfg summary msgs)

/-- The config-only tail of the `Notification` branch. -/
def rmNotifCfg (ev : Event) (msgs : Msgs) (key : String) : Option String :=
  let t := msgsGet msgs key (msgsGet msgs "notification_default" "{message}")
  let raw := ev.message.getD "Notification"
  some (take_sentences (replaceS t "{message}" raw) 3)

/-- The `Notification` branch of `resolve_message`, including the
`idle_prompt` retry (`if not template and notif_type == "idle_prompt"`). -/
def rmNotif (ev : Event) (msgs : Msgs) (pers : Pers) (draws : List Nat) :
    Option String :=
  let ntype := ev.notification_type.getD ""
  let key := "notification_" ++ ntype
  let p1 := pick_template pers key draws
  let p2 :=
    if !truthyO p1.1 && ntype = "idle_prompt" then
      pick_template pers "notification_idle_prompt" p1.2
    else p1
  match p2.1 with
  | some t =>
    if t ≠ "" then
      some (take_sentences (replaceS t "{message}" (ev.message.getD "")) 3)
    else rmNotifCfg ev msgs key
  | none => rmNotifCfg ev msgs key

/-- The `Notification` branch with the `idle_prompt` retry removed
(the variant claim C10 compares against). -/
def rmNotifNoRetry (ev : Event) (msgs : Msgs) (pers : Pers) (draws : List Nat) :
    Option String :=
  let ntype := ev.notification_type.getD ""
  let key := "notification_" ++ ntype
  let p1 := pick_template pers key draws
  match p1.1 with
  | some t =>
    if t ≠ "" then
      some (take_sentences (replaceS t "{message}" (ev.message.getD "")) 3)
    else rmNotifCfg ev msgs key
  | none => rmNotifCfg ev msgs key

/-- `resolve_message(event, config, personality)` with the injected
random draws and file system. -/
def resolve_message (ev : Event) (cfg : Config) (pers : Pers)
    (draws : List Nat) (fs : FS) : Except PyErr (Option String) :=
  if ev.hook_event_name.getD "" = "UserPromptSubmit" then
    .ok (rmPrompt ev (cfg.messages.getD defaultMessages) pers draws)
  else if ev.hook_event_name.getD "" = "Stop" then
    rmStop ev (cfg.messages.getD defaultMessages) pers draws fs
  else if ev.hook_event_name.getD "" = "Notification" then
    .ok (rmNotif ev (cfg.messages.getD defaultMessages) pers draws)
  else .ok none

/-- `resolve_message` with the `Notification` retry branch removed;
identical to `resolve_message` everywhere else. -/
def resolve_message_noretry (ev : Event) (cfg : Config) (pers : Pers)
    (draws : List Nat) (fs : FS) : Except PyErr (Option String) :=
  if ev.hook_event_name.getD "" = "UserPromptSubmit" then
    .ok (rmPrompt ev (cfg.messages.getD defaultMessages) pers draws)
  else if ev.hook_event_name.getD "" = "Stop" then
    rmStop ev (cfg.messages.getD defaultMessages) pers draws fs
  else if ev.hook_event_name.getD "" = "Notification" then
    .ok (rmNotifNoRetry ev (cfg.messages.getD defaultMessages) pers draws)
  else .ok none

/-! ### Shape predicates for transcript entries

`wsBlock` / `wsEntry` delimit the JSON shapes on which the scanning
loop of `_extract_summary` provably raises nothing: the entry is an
object; if it is an assistant entry, its `message` is an object whose
`content` is a list of objects; a `text`-typed block carries a string
`text` field when it carries one at all.  The `Strict` variants
additionally require the `text` field to be present (a missing one is
a `KeyError`, which aborts the scan with `""`). -/

def wsBlock : PyVal → Bool
  | .dict kvs =>
    (match pyLookup kvs "type" with
     | some (.str t) =>
       if t = "text" then
         match pyLookup kvs "text" with
         | none => true
         | some (.str _) => true
         | some _ => false
       else true
     | _ => true)
  | _ => false

def wsEntry : PyVal → Bool
  | .dict kvs =>
    (match pyLookup kvs "type" with
     | some (.str t) =>
       if t = "assistant" then
         match (pyLookup kvs "message").getD (.dict []) with
         | .dict mkv =>
           (match (pyLookup mkv "content").getD (.list []) with
            | .list bs => bs.all wsBlock
            | _ => false)
         | _ => false
       else true
     | _ => true)
  | _ => false

def wsLine : TLine → Bool
  | .blank => true
  | .malformed => true
  | .parsed v => wsEntry v

def wsBlockStrict : PyVal → Bool
  | .dict kvs =>
    (match pyLookup kvs "type" with
     | some (.str t) =>
       if t = "text" then
         match pyLookup kvs "text" with
         | some (.str _) => true
         | _ => false
       else true
     | _ => true)
  | _ => false

def wsEntryStrict : PyVal → Bool
  | .dict kvs =>
    (match pyLookup kvs "type" with
     | some (.str t) =>
       if t = "assistant" then
         match (pyLookup kvs "message").getD (.dict []) with
         | .dict mkv =>
           (match (pyLookup mkv "content").getD (.list []) with
            | .list bs => bs.all wsBlockStrict
            | _ => false)
         | _ => false
       else true
     | _ => true)
  | _ => false

def wsLineStrict : TLine → Bool
  | .blank => true
  | .malformed => false
  | .parsed v => wsEntryStrict v

/-- Is `v` an assistant entry (`entry.get("type") == "assistant"`)? -/
def isAssistantEntry : PyVal → Bool
  | .dict kvs =>
    (match pyLookup kvs "type" with
     | some (.str t) => t = "assistant"
     | _ => false)
  | _ => false

def entryOf : TLine → Option PyVal
  | .parsed v => if isAssistantEntry v then some v else none
  | _ => none

/-- The assistant entries of a transcript, in order. -/
def assistantEntries (lines : List TLine) : List PyVal := lines.filterMap entryOf

/-- The `message.content` block list of an entry (empty on shape misses). -/
def contentOf : PyVal → List PyVal
  | .dict kvs =>
    (match (pyLookup kvs "message").getD (.dict []) with
     | .dict mkv =>
       (match (pyLookup mkv "content").getD (.list []) with
        | .list bs => bs
        | _ => [])
     | _ => [])
  | _ => []

/-- The string content of a `text`-typed block, if any. -/
def textOfBlock : PyVal → Option String
  | .dict kvs =>
    (match pyLookup kvs "type" with
     | some (.str t) =>
       if t = "text" then
         match pyLookup kvs "text" with
         | some (.str s) => some s
         | _ => none
       else none
     | _ => none)
  | _ => none

/-- The string contents of the `text`-typed blocks of an entry, in order. -/
def textBlockStrs (v : PyVal) : List String :=
  (contentOf v).filterMap textOfBlock

/-- Modelled from the spec: "the concatenated text-block content" of an
assistant entry — what claim C4 asserts the scan accumulates. -/
def specConcatTextBlocks (v : PyVal) : String := String.join (textBlockStrs v)

/-- What the scanning loop folds `last_text` to over the assistant
entries: each entry with at least one text block overwrites the
accumulator with its last text block. -/
def lastTextFold (lines : List TLine) (s : String) : String :=
  (assistantEntries lines).foldl (fun acc v => (textBlockStrs v).getLastD acc) s

/-- The placeholder a template stored under key `k` is substituted
with by `resolve_message`; `removePh k v` is the template text that
survives the substitution whatever the substituted value is. -/
def removePh (k v : String) : String :=
  if k = "stop" then replaceS v "{summary}" ""
  else if startsWithS k "notification" then replaceS v "{message}" ""
  else replaceS v "{prompt}" ""

/-! ### Sentence-chain predicates (for the claim about `_take_sentences`) -/

/-- No sentence delimiter fires anywhere in `l` when the character
before `l` is `prev` (the regex lookbehind): there is no whitespace
character immediately preceded by `.`, `!` or `?`. -/
def noFireB (prev : Option Char) : List Char → Bool
  | [] => true
  | c :: rest =>
    !(isWsC c && (match prev with | some p => isPunctC p | none => false)) &&
      noFireB (some c) rest

/-- A well-formed sentence piece: nonempty, stripped at both ends, and
free of internal delimiters. -/
def goodPartB (p : List Char) : Bool :=
  !p.isEmpty && !isWsC (p.headD 'a') && !isWsC (p.getLastD 'a') && noFireB none p

/-- Is the optional previous character sentence punctuation? -/
def punctO : Option Char → Bool
  | some p => isPunctC p
  | none => false

/-- The character ending `prev ++ xs`, scanning-wise: the last of `xs`
if any, else `prev`. -/
def lastO (prev : Option Char) : List Char → Option Char
  | [] => prev
  | x :: xs => lastO (some x) xs

/-- Last character of `l` is not whitespace (vacuously true for `[]`);
an invariant of every suffix the sentence scanner is run on, since the
input is stripped first. -/
def lastOkB (l : List Char) : Bool := !isWsC (l.getLastD 'a')

/-- The post-processing `_split_sentences` applies to the raw regex
split: strip each piece and drop the empty ones. -/
def procPieces (ps : List (List Char)) : List (List Char) :=
  (ps.map stripL).filter (fun p => p ≠ [])

/-- The shape invariant of `_split_sentences` output: every element is
a well-formed piece and every element except the last ends with
sentence punctuation. -/
inductive SentChain : List (List Char) → Prop where
  | nil : SentChain []
  | single (p : List Char) (hp : goodPartB p = true) : SentChain [p]
  | cons (p : List Char) (rest : List (List Char)) (hp : goodPartB p = true)
      (hpunct : isPunctC (p.getLastD 'a') = true) (hrest : SentChain rest)
      (hne : rest ≠ []) : SentChain (p :: rest)

/-! ## Lemmas -/

/-! ### Whitespace and stripping -/

theorem isWsC_punct_false {c : Char} (h : isPunctC c = true) : isWsC c = false := by
  simp only [isPunctC, Bool.or_eq_true, decide_eq_true_eq] at h
  rcases h with (rfl | rfl) | rfl <;> rfl

theorem getLastD_irrel {α : Type} {l : List α} (h : l ≠ []) (a b : α) :
    l.getLastD a = l.getLastD b := by
  rw [List.getLastD_eq_getLast?, List.getLastD_eq_getLast?, List.getLast?_eq_getLast l h]
  rfl

theorem getLastD_mem {α : Type} {l : List α} (h : l ≠ []) (a : α) :
    l.getLastD a ∈ l := by
  rw [List.getLastD_eq_getLast?, List.getLast?_eq_getLast l h]
  exact List.getLast_mem h

theorem rstripL_sublist (l : List Char) : List.Sublist (rstripL l) l := by
  induction l with
  | nil => simp [rstripL]
  | cons c rest ih =>
    rw [rstripL]
    split
    · exact List.nil_sublist _
    · exact ih.cons₂ c

theorem stripL_sublist (l : List Char) : List.Sublist (stripL l) l :=
  (rstripL_sublist _).trans (List.dropWhile_sublist _)

theorem rstripL_eq_nil_or_cons (c : Char) (rest : List Char) :
    rstripL (c :: rest) = [] ∨ rstripL (c :: rest) = c :: rstripL rest := by
  rw [rstripL]
  split
  · exact Or.inl rfl
  · exact Or.inr rfl

theorem dropWhile_head_false {p : Char → Bool} {l : List Char} {x : Char} {xs : List Char}
    (h : l.dropWhile p = x :: xs) : p x = false := by
  have := List.head?_dropWhile_not p l
  rw [h] at this
  simpa using this

theorem stripL_head_not_ws {l : List Char} {x : Char} {xs : List Char}
    (h : stripL l = x :: xs) : isWsC x = false := by
  rw [stripL] at h
  rcases hd : l.dropWhile isWsC with _ | ⟨c, rest⟩
  · rw [hd] at h; simp [rstripL] at h
  · rw [hd] at h
    rcases rstripL_eq_nil_or_cons c rest with h2 | h2
    · rw [h2] at h; exact absurd h (by simp)
    · rw [h2] at h
      cases h
      exact dropWhile_head_false hd

theorem rstripL_last_not_ws {l : List Char} (h : rstripL l ≠ []) :
    isWsC ((rstripL l).getLastD 'a') = false := by
  induction l with
  | nil => simp [rstripL] at h
  | cons c rest ih =>
    rw [rstripL] at h ⊢
    split at h
    · exact absurd rfl h
    · rename_i hcond
      rw [if_neg hcond]
      simp only [Bool.and_eq_true, decide_eq_true_eq, not_and] at hcond
      simp only [List.getLastD_cons]
      by_cases hr : rstripL rest = []
      · rw [hr]
        simp only [List.getLastD_nil]
        exact Bool.not_eq_true _ ▸ hcond hr
      · rw [getLastD_irrel hr c 'a']
        exact ih hr

theorem stripL_last_not_ws {l : List Char} (h : stripL l ≠ []) :
    isWsC ((stripL l).getLastD 'a') = false :=
  rstripL_last_not_ws h

theorem rstripL_ne_nil_of_not_ws {l : List Char} {a : Char} (ha : a ∈ l)
    (hnw : isWsC a = false) : rstripL l ≠ [] := by
  induction l with
  | nil => cases ha
  | cons c rest ih =>
    rw [rstripL]
    rcases List.mem_cons.1 ha with rfl | ha2
    · split
      · rename_i hcond
        simp only [Bool.and_eq_true, decide_eq_true_eq] at hcond
        rw [hcond.2] at hnw; cases hnw
      · simp
    · split
      · rename_i hcond
        simp only [Bool.and_eq_true, decide_eq_true_eq] at hcond
        exact absurd hcond.1 (ih ha2)
      · simp

theorem mem_dropWhile_of_not_ws {l : List Char} {a : Char} (ha : a ∈ l)
    (hnw : isWsC a = false) : a ∈ l.dropWhile isWsC := by
  induction l with
  | nil => cases ha
  | cons c rest ih =>
    by_cases hc : isWsC c = true
    · rw [List.dropWhile_cons_of_pos hc]
      rcases List.mem_cons.1 ha with rfl | ha2
      · rw [hnw] at hc; cases hc
      · exact ih ha2
    · rw [List.dropWhile_cons_of_neg hc]
      exact ha

theorem stripL_ne_nil_of_hasNW {l : List Char} (h : hasNW l = true) : stripL l ≠ [] := by
  rcases List.any_eq_true.1 h with ⟨a, ha, hnw⟩
  simp only [Bool.not_eq_true'] at hnw
  exact rstripL_ne_nil_of_not_ws (mem_dropWhile_of_not_ws ha hnw) hnw

theorem hasNW_of_stripL_ne_nil {l : List Char} (h : stripL l ≠ []) : hasNW l = true := by
  rcases hs : stripL l with _ | ⟨c, rest⟩
  · exact absurd hs h
  · have hc : c ∈ l := (stripL_sublist l).mem (hs ▸ List.mem_cons_self c rest)
    exact List.any_eq_true.2 ⟨c, hc, by simp [stripL_head_not_ws hs]⟩

theorem hasNW_of_mem {l : List Char} {a : Char} (ha : a ∈ l) (hnw : isWsC a = false) :
    hasNW l = true :=
  List.any_eq_true.2 ⟨a, ha, by simp [hnw]⟩

theorem rstripL_eq_self {l : List Char} (h : isWsC (l.getLastD 'a') = false) :
    rstripL l = l := by
  induction l with
  | nil => rfl
  | cons c rest ih =>
    rw [rstripL]
    by_cases hr : rest = []
    · subst hr
      simp only [List.getLastD_cons, List.getLastD_nil] at h
      simp [rstripL, h]
    · rw [List.getLastD_cons, getLastD_irrel hr c 'a'] at h
      rw [ih h]
      simp [hr]

theorem dropWhile_eq_self_of_head {l : List Char} {x : Char} {xs : List Char}
    (hl : l = x :: xs) (hx : isWsC x = false) : l.dropWhile isWsC = l := by
  subst hl
  rw [List.dropWhile_cons_of_neg (by simp [hx])]

theorem stripL_eq_self {l : List Char} (hh : isWsC (l.headD 'a') = false)
    (hl : isWsC (l.getLastD 'a') = false) : stripL l = l := by
  rcases l with _ | ⟨c, rest⟩
  · rfl
  · rw [stripL, dropWhile_eq_self_of_head rfl (by simpa using hh), rstripL_eq_self hl]

theorem stripL_idem (l : List Char) : stripL (stripL l) = stripL l := by
  rcases hs : stripL l with _ | ⟨c, rest⟩
  · rfl
  · have hh : isWsC ((stripL l).headD 'a') = false := by
      rw [hs]; exact stripL_head_not_ws hs
    have hl : isWsC ((stripL l).getLastD 'a') = false :=
      stripL_last_not_ws (by rw [hs]; simp)
    rw [← hs]
    exact stripL_eq_self hh hl

theorem getLastD_dropWhile {p : Char → Bool} {l : List Char} (d : Char)
    (h : l.dropWhile p ≠ []) : (l.dropWhile p).getLastD d = l.getLastD d := by
  induction l with
  | nil => simp at h
  | cons c rest ih =>
    by_cases hc : p c = true
    · rw [List.dropWhile_cons_of_pos hc] at h ⊢
      have hrest : rest ≠ [] := by
        rintro rfl; simp at h
      rw [ih h, List.getLastD_cons, getLastD_irrel hrest c d]
    · rw [List.dropWhile_cons_of_neg hc]

theorem stripL_getLastD {l : List Char} (hws : isWsC (l.getLastD 'a') = false)
    (hne : l ≠ []) : (stripL l).getLastD 'a' = l.getLastD 'a' := by
  have hdw : l.dropWhile isWsC ≠ [] := by
    intro hnil
    have := (List.dropWhile_eq_nil_iff.1 hnil) _ (getLastD_mem hne 'a')
    rw [hws] at this; cases this
  have hlast : (l.dropWhile isWsC).getLastD 'a' = l.getLastD 'a' :=
    getLastD_dropWhile 'a' hdw
  rw [stripL, rstripL_eq_self (hlast ▸ hws), hlast]

/-! ### The sentence scanner -/

theorem split_sentencesL_eq (l : List Char) :
    split_sentencesL l = procPieces (rawPieces (stripL l)) := rfl

theorem fireB_eq (acc : List Char) (c : Char) :
    fireB acc c = (isWsC c && punctO acc.head?) := by
  cases acc <;> rfl

theorem noFireB_cons (prev : Option Char) (c : Char) (rest : List Char) :
    noFireB prev (c :: rest) =
      (!(isWsC c && punctO prev) && noFireB (some c) rest) := by
  cases prev <;> rfl

theorem noFireB_drop_prev {prev : Option Char} {l : List Char}
    (h : noFireB prev l = true) : noFireB none l = true := by
  cases l with
  | nil => rfl
  | cons c rest =>
    rw [noFireB_cons] at h ⊢
    simp only [Bool.and_eq_true] at h ⊢
    exact ⟨by simp [punctO], h.2⟩

theorem noFireB_of_head_not_ws {l : List Char} (prev : Option Char)
    (hh : isWsC (l.headD 'a') = false) (h : noFireB none l = true) :
    noFireB prev l = true := by
  cases l with
  | nil => rfl
  | cons c rest =>
    rw [noFireB_cons] at h ⊢
    simp only [Bool.and_eq_true] at h ⊢
    refine ⟨?_, h.2⟩
    simp only [List.headD_cons] at hh
    simp [hh]

theorem noFireB_tail {c : Char} {l : List Char}
    (h : noFireB none (c :: l) = true) : noFireB none l = true := by
  rw [noFireB_cons] at h
  exact noFireB_drop_prev (Bool.and_elim_right h)

theorem noFireB_dropWhile {p : Char → Bool} {l : List Char}
    (h : noFireB none l = true) : noFireB none (l.dropWhile p) = true := by
  induction l with
  | nil => rfl
  | cons c rest ih =>
    by_cases hc : p c = true
    · rw [List.dropWhile_cons_of_pos hc]
      exact ih (noFireB_tail h)
    · rw [List.dropWhile_cons_of_neg hc]
      exact h

theorem noFireB_rstrip {l : List Char} :
    ∀ {prev : Option Char}, noFireB prev l = true → noFireB prev (rstripL l) = true := by
  induction l with
  | nil => intro prev h; exact h
  | cons c rest ih =>
    intro prev h
    rw [rstripL]
    split
    · rfl
    · rw [noFireB_cons] at h ⊢
      simp only [Bool.and_eq_true] at h ⊢
      exact ⟨h.1, ih h.2⟩

theorem noFireB_strip {l : List Char} (h : noFireB none l = true) :
    noFireB none (stripL l) = true :=
  noFireB_rstrip (noFireB_dropWhile h)

theorem noFireB_snoc (c : Char) :
    ∀ (xs : List Char) (prev : Option Char),
      noFireB prev (xs ++ [c]) =
        (noFireB prev xs && !(isWsC c && punctO (lastO prev xs))) := by
  intro xs
  induction xs with
  | nil =>
    intro prev
    rw [List.nil_append, noFireB_cons, lastO]
    cases prev <;> simp [noFireB, punctO]
  | cons x xs' ih =>
    intro prev
    rw [List.cons_append, noFireB_cons, ih (some x), noFireB_cons, lastO]
    rw [Bool.and_assoc]

theorem lastO_append_singleton (p : Char) :
    ∀ (ys : List Char) (prev : Option Char), lastO prev (ys ++ [p]) = some p := by
  intro ys
  induction ys with
  | nil => intro prev; rfl
  | cons y ys' ih => intro prev; exact ih (some y)

theorem sentAux_ne_nil : ∀ (m : Bool) (l acc : List Char), sentAux m l acc ≠ [] := by
  intro m l
  induction l generalizing m with
  | nil => intro acc; cases m <;> simp [sentAux]
  | cons c rest ih =>
    intro acc
    cases m with
    | true =>
      rw [sentAux]
      split
      · exact ih true acc
      · exact ih false (c :: acc)
    | false =>
      rw [sentAux]
      split
      · simp
      · exact ih false (c :: acc)

theorem sentAux_first_mem :
    ∀ (m : Bool) (l acc : List Char), ∃ p ps, sentAux m l acc = p :: ps ∧ ∀ x ∈ acc, x ∈ p := by
  intro m l
  induction l generalizing m with
  | nil =>
    intro acc
    cases m <;> exact ⟨acc.reverse, [], rfl, fun x hx => by simpa using hx⟩
  | cons c rest ih =>
    intro acc
    cases m with
    | true =>
      rw [sentAux]
      split
      · exact ih true acc
      · rcases ih false (c :: acc) with ⟨p, ps, hps, hmem⟩
        exact ⟨p, ps, hps, fun x hx => hmem x (List.mem_cons_of_mem c hx)⟩
    | false =>
      rw [sentAux]
      split
      · exact ⟨acc.reverse, _, rfl, fun x hx => by simpa using hx⟩
      · rcases ih false (c :: acc) with ⟨p, ps, hps, hmem⟩
        exact ⟨p, ps, hps, fun x hx => hmem x (List.mem_cons_of_mem c hx)⟩

theorem procPieces_cons_kept {x : List Char} {ps : List (List Char)}
    (hx : stripL x ≠ []) : procPieces (x :: ps) = stripL x :: procPieces ps := by
  simp [procPieces, hx]

theorem procPieces_cons_dropped {x : List Char} {ps : List (List Char)}
    (hx : stripL x = []) : procPieces (x :: ps) = procPieces ps := by
  simp [procPieces, hx]

theorem split_sentencesL_ne_nil {l : List Char} (h : hasNW l = true) :
    split_sentencesL l ≠ [] := by
  have hst : stripL l ≠ [] := stripL_ne_nil_of_hasNW h
  rcases ht : stripL l with _ | ⟨c, rest⟩
  · exact absurd ht hst
  · have hc : isWsC c = false := stripL_head_not_ws ht
    rw [split_sentencesL_eq, ht]
    rw [rawPieces, sentAux]
    rw [if_neg (by rw [fireB_eq]; simp [punctO])]
    rcases sentAux_first_mem false rest [c] with ⟨p, ps, hps, hmem⟩
    rw [hps]
    have hpne : stripL p ≠ [] :=
      stripL_ne_nil_of_hasNW (hasNW_of_mem (hmem c (by simp)) hc)
    rw [procPieces_cons_kept hpne]
    simp

theorem split_sentencesL_mem {l x : List Char} (hx : x ∈ split_sentencesL l) :
    x ≠ [] ∧ isWsC (x.headD 'a') = false ∧ isWsC (x.getLastD 'a') = false := by
  rw [split_sentencesL_eq, procPieces] at hx
  have hne : x ≠ [] := by simpa using (List.mem_filter.1 hx).2
  rcases List.mem_map.1 (List.mem_filter.1 hx).1 with ⟨p, _, hp⟩
  subst hp
  refine ⟨hne, ?_, stripL_last_not_ws hne⟩
  rcases hs : stripL p with _ | ⟨c, cs⟩
  · rfl
  · simpa using stripL_head_not_ws hs

theorem joinSpL_cons_ne {p : List Char} {rest : List (List Char)} (h : rest ≠ []) :
    joinSpL (p :: rest) = p ++ ' ' :: joinSpL rest := by
  cases rest with
  | nil => exact absurd rfl h
  | cons q rs => rfl

theorem joinSpL_ne_nil {p : List Char} {rest : List (List Char)} (hp : p ≠ []) :
    joinSpL (p :: rest) ≠ [] := by
  cases rest with
  | nil => exact hp
  | cons q rs => simp [joinSpL]

theorem take_sentencesL_ne_nil {l : List Char} (h : hasNW l = true)
    {n : Nat} (hn : 1 ≤ n) : take_sentencesL l n ≠ [] := by
  rcases hs : split_sentencesL l with _ | ⟨p, ps⟩
  · exact absurd hs (split_sentencesL_ne_nil h)
  · have hp : p ≠ [] := (split_sentencesL_mem (hs ▸ List.mem_cons_self p ps)).1
    rw [take_sentencesL, hs]
    rw [if_neg (by simp)]
    rcases n with _ | n
    · cases hn
    · rw [List.take_succ_cons]
      exact joinSpL_ne_nil hp

theorem sentAux_no_punct :
    ∀ (l acc : List Char), (∀ c ∈ l, isPunctC c = false) →
      (∀ c ∈ acc, isPunctC c = false) → sentAux false l acc = [acc.reverse ++ l] := by
  intro l
  induction l with
  | nil => intro acc _ _; simp [sentAux]
  | cons c rest ih =>
    intro acc hl hacc
    rw [sentAux]
    rw [if_neg ?_]
    · rw [ih (c :: acc) (fun x hx => hl x (List.mem_cons_of_mem c hx))
        (fun x hx => by
          rcases List.mem_cons.1 hx with rfl | hx2
          · exact hl x (List.mem_cons_self x rest)
          · exact hacc x hx2)]
      simp
    · rw [fireB_eq]
      rcases hac : acc with _ | ⟨p, _⟩
      · simp [punctO]
      · have : isPunctC p = false := hacc p (by simp [hac])
        simp [punctO, this]

theorem split_sentencesL_no_punct {l : List Char}
    (h : ∀ c ∈ l, isPunctC c = false) :
    split_sentencesL l = if stripL l = [] then [] else [stripL l] := by
  have hsub : ∀ c ∈ stripL l, isPunctC c = false :=
    fun c hc => h c ((stripL_sublist l).mem hc)
  rw [split_sentencesL_eq, rawPieces, sentAux_no_punct (stripL l) [] hsub (by simp)]
  simp only [List.reverse_nil, List.nil_append]
  by_cases hst : stripL l = []
  · rw [hst]
    rfl
  · rw [if_neg hst]
    rw [procPieces]
    simp only [List.map_cons, List.map_nil, stripL_idem]
    simp [hst]

/-! ### The sentence-chain invariant and the join–split inverse -/

theorem reverse_getLastD_head {p : Char} (acc' : List Char) :
    ((p :: acc').reverse).getLastD 'a' = p := by
  rw [List.getLastD_eq_getLast?, List.getLast?_reverse]
  rfl

theorem goodPartB_of_strip {x : List Char} (hne : stripL x ≠ [])
    (hnf : noFireB none x = true) : goodPartB (stripL x) = true := by
  rcases hs : stripL x with _ | ⟨c, cs⟩
  · exact absurd hs hne
  · rw [goodPartB, ← hs]
    simp only [Bool.and_eq_true]
    refine ⟨⟨⟨by simp [hs], ?_⟩, ?_⟩, noFireB_strip hnf⟩
    · rw [hs]
      simp only [List.headD_cons, Bool.not_eq_true']
      exact stripL_head_not_ws hs
    · simp only [Bool.not_eq_true']
      exact stripL_last_not_ws hne

theorem hasNW_last {l : List Char} (hne : l ≠ []) (h : lastOkB l = true) :
    hasNW l = true := by
  rw [lastOkB, Bool.not_eq_true'] at h
  exact hasNW_of_mem (getLastD_mem hne 'a') h

theorem lastOkB_rest {c : Char} {rest : List Char} (h : lastOkB (c :: rest) = true)
    (hw : isWsC c = true) : rest ≠ [] ∧ lastOkB rest = true := by
  have hne : rest ≠ [] := by
    rintro rfl
    rw [lastOkB] at h
    simp only [List.getLastD_cons, List.getLastD_nil] at h
    rw [hw] at h; cases h
  refine ⟨hne, ?_⟩
  rw [lastOkB] at h ⊢
  rw [List.getLastD_cons, getLastD_irrel hne c 'a'] at h
  exact h

theorem lastOkB_rest_any {c : Char} {rest : List Char}
    (h : lastOkB (c :: rest) = true) : lastOkB rest = true := by
  rcases hr : rest with _ | ⟨x, xs⟩
  · rfl
  · rw [lastOkB] at h ⊢
    rw [List.getLastD_cons, getLastD_irrel (by simp [hr] : rest ≠ []) c 'a', hr] at h
    exact h

theorem procPieces_sentAux_ne_nil :
    ∀ (l : List Char) (m : Bool) (acc : List Char),
      (hasNW acc || hasNW l) = true → procPieces (sentAux m l acc) ≠ [] := by
  intro l
  induction l with
  | nil =>
    intro m acc h
    have hacc : hasNW acc = true := by simpa [hasNW] using h
    have : hasNW acc.reverse = true := by
      rw [hasNW, List.any_reverse]; exact hacc
    have hkeep : stripL acc.reverse ≠ [] := stripL_ne_nil_of_hasNW this
    cases m <;> · rw [sentAux, procPieces_cons_kept hkeep]; simp
  | cons c rest ih =>
    intro m acc h
    by_cases hw : isWsC c = true
    · have hrest : (hasNW acc || hasNW rest) = true := by
        rcases (Bool.or_eq_true _ _).mp h with h1 | h1
        · simp [h1]
        · rw [hasNW, List.any_cons] at h1
          rcases (Bool.or_eq_true _ _).mp h1 with h2 | h2
          · rw [hw] at h2; cases h2
          · simp [hasNW, h2]
      cases m with
      | true =>
        rw [sentAux, if_pos hw]
        exact ih true acc hrest
      | false =>
        by_cases hf : fireB acc c = true
        · rw [sentAux, if_pos hf]
          rcases hac : acc with _ | ⟨p, acc'⟩
          · rw [hac, fireB_eq] at hf; simp [punctO] at hf
          · rw [hac, fireB_eq] at hf
            have hp : isPunctC p = true := by
              simpa [punctO, hw] using hf
            have hkeep : stripL ((p :: acc').reverse) ≠ [] := by
              apply stripL_ne_nil_of_hasNW
              rw [hasNW, List.any_reverse, List.any_cons]
              simp [isWsC_punct_false hp]
            rw [procPieces_cons_kept hkeep]
            simp
        · rw [sentAux, if_neg hf]
          apply ih false (c :: acc)
          rcases (Bool.or_eq_true _ _).mp hrest with h1 | h1
          · have : hasNW (c :: acc) = true := by
              rw [hasNW, List.any_cons]
              simp [hasNW] at h1
              simp [h1]
            simp [this]
          · simp [h1]
    · cases m with
      | true =>
        rw [sentAux, if_neg hw]
        apply ih false (c :: acc)
        have : hasNW (c :: acc) = true := by
          rw [hasNW, List.any_cons]
          simp [hw]
        simp [this]
      | false =>
        have hf : fireB acc c = false := by
          rw [fireB_eq]
          simp [hw]
        rw [sentAux, if_neg (by simp [hf])]
        apply ih false (c :: acc)
        have : hasNW (c :: acc) = true := by
          rw [hasNW, List.any_cons]
          simp [hw]
        simp [this]

theorem chain_base (acc : List Char) (hacc : noFireB none acc.reverse = true) :
    SentChain (procPieces (sentAux false [] acc)) := by
  rw [sentAux]
  by_cases hk : stripL acc.reverse = []
  · rw [procPieces_cons_dropped hk]
    exact SentChain.nil
  · rw [procPieces_cons_kept hk]
    exact SentChain.single _ (goodPartB_of_strip hk hacc)

theorem chain_base_true : SentChain (procPieces (sentAux true ([] : List Char) [])) := by
  have hnil : procPieces (sentAux true ([] : List Char) []) = [] := rfl
  rw [hnil]
  exact SentChain.nil

theorem chain_aux :
    ∀ (N : Nat) (l : List Char), l.length ≤ N → lastOkB l = true →
      (∀ acc, noFireB none acc.reverse = true →
        SentChain (procPieces (sentAux false l acc))) ∧
      SentChain (procPieces (sentAux true l [])) := by
  intro N
  induction N with
  | zero =>
    intro l hlen hok
    have hl : l = [] := List.length_eq_zero.1 (Nat.le_zero.1 hlen)
    subst hl
    exact ⟨fun acc hacc => chain_base acc hacc, chain_base_true⟩
  | succ N ih =>
    intro l hlen hok
    rcases l with _ | ⟨c, rest⟩
    · exact ⟨fun acc hacc => chain_base acc hacc, chain_base_true⟩
    · have hlen2 : rest.length ≤ N := Nat.le_of_succ_le_succ hlen
      constructor
      · intro acc hacc
        by_cases hf : fireB acc c = true
        · -- a delimiter fires: emit the accumulated piece
          have hw : isWsC c = true := by
            rw [fireB_eq] at hf
            exact ((Bool.and_eq_true _ _).mp hf).1
          rcases hac : acc with _ | ⟨p, acc'⟩
          · rw [hac, fireB_eq] at hf; simp [punctO] at hf
          · rw [hac] at hf hacc
            have hp : isPunctC p = true := by
              rw [fireB_eq] at hf
              simpa [punctO, hw] using hf
            rw [sentAux, if_pos hf]
            obtain ⟨hrne, hrok⟩ := lastOkB_rest hok hw
            have hkeep : stripL ((p :: acc').reverse) ≠ [] := by
              apply stripL_ne_nil_of_hasNW
              rw [hasNW, List.any_reverse, List.any_cons]
              simp [isWsC_punct_false hp]
            rw [procPieces_cons_kept hkeep]
            refine SentChain.cons _ _ (goodPartB_of_strip hkeep hacc) ?_
              ((ih rest hlen2 hrok).2) ?_
            · -- the emitted piece ends with the firing punctuation
              have hrev : ((p :: acc').reverse).getLastD 'a' = p :=
                reverse_getLastD_head acc'
              have hnw : isWsC (((p :: acc').reverse).getLastD 'a') = false := by
                rw [hrev]; exact isWsC_punct_false hp
              rw [stripL_getLastD hnw (by simp), hrev]
              exact hp
            · exact procPieces_sentAux_ne_nil rest true []
                (by simp [hasNW_last hrne hrok])
        · rw [sentAux, if_neg (by simp [hf])]
          apply (ih rest hlen2 (lastOkB_rest_any hok)).1 (c :: acc)
          rw [List.reverse_cons, noFireB_snoc]
          simp only [Bool.and_eq_true]
          refine ⟨hacc, ?_⟩
          rcases hac : acc with _ | ⟨p, acc'⟩
          · simp [lastO, punctO]
          · rw [hac, fireB_eq] at hf
            rw [List.reverse_cons, lastO_append_singleton]
            simp only [List.head?_cons, punctO] at hf ⊢
            simp [hf]
      · rw [sentAux]
        by_cases hw : isWsC c = true
        · rw [if_pos hw]
          obtain ⟨_, hrok⟩ := lastOkB_rest hok hw
          exact (ih rest hlen2 hrok).2
        · rw [if_neg hw]
          apply (ih rest hlen2 (lastOkB_rest_any hok)).1 [c]
          simp [noFireB_cons, noFireB, punctO]

theorem split_sentencesL_chain (l : List Char) : SentChain (split_sentencesL l) := by
  rw [split_sentencesL_eq, rawPieces]
  have hok : lastOkB (stripL l) = true := by
    rcases hs : stripL l with _ | ⟨c, cs⟩
    · rfl
    · rw [lastOkB, Bool.not_eq_true', ← hs]
      exact stripL_last_not_ws (by simp [hs])
  exact (chain_aux (stripL l).length (stripL l) (Nat.le_refl _) hok).1 [] rfl

theorem sentChain_take {ps : List (List Char)} (h : SentChain ps) :
    ∀ n, SentChain (ps.take n) := by
  induction h with
  | nil => intro n; simpa using SentChain.nil
  | single p hp =>
    intro n
    rcases n with _ | n
    · exact SentChain.nil
    · simpa using SentChain.single p hp
  | cons p rest hp hpunct hrest hne ih =>
    intro n
    rcases n with _ | n
    · exact SentChain.nil
    · rw [List.take_succ_cons]
      rcases ht : rest.take n with _ | ⟨q, qs⟩
      · exact SentChain.single p hp
      · exact SentChain.cons p _ hp hpunct (ht ▸ ih n) (by simp [ht])

theorem sentAux_no_fire :
    ∀ (l acc : List Char), noFireB acc.head? l = true →
      sentAux false l acc = [acc.reverse ++ l] := by
  intro l
  induction l with
  | nil => intro acc _; simp [sentAux]
  | cons c rest ih =>
    intro acc h
    rw [noFireB_cons] at h
    obtain ⟨h1, h2⟩ := (Bool.and_eq_true _ _).mp h
    rw [sentAux, if_neg ?_]
    · rw [ih (c :: acc) h2]
      simp
    · rw [fireB_eq]
      rw [Bool.not_eq_true'] at h1
      simp [h1]

theorem sentAux_append :
    ∀ (xs ys acc : List Char), noFireB acc.head? xs = true →
      sentAux false (xs ++ ys) acc = sentAux false ys (xs.reverse ++ acc) := by
  intro xs
  induction xs with
  | nil => intro ys acc _; simp
  | cons x xs' ih =>
    intro ys acc h
    rw [noFireB_cons] at h
    obtain ⟨h1, h2⟩ := (Bool.and_eq_true _ _).mp h
    rw [List.cons_append, sentAux, if_neg ?_]
    · rw [ih ys (x :: acc) h2]
      simp
    · rw [fireB_eq]
      rw [Bool.not_eq_true'] at h1
      simp [h1]

theorem sentAux_true_step {l : List Char} (hne : l ≠ [])
    (hh : isWsC (l.headD 'a') = false) :
    sentAux true l [] = sentAux false l [] := by
  rcases l with _ | ⟨c, rest⟩
  · exact absurd rfl hne
  · simp only [List.headD_cons] at hh
    have h1 : sentAux true (c :: rest) [] = sentAux false rest [c] := by
      rw [sentAux, if_neg (by simp [hh])]
    have h2 : sentAux false (c :: rest) [] = sentAux false rest [c] := by
      rw [sentAux, if_neg (by rw [fireB_eq]; simp [punctO])]
    rw [h1, h2]

theorem goodPartB_ne_nil {p : List Char} (h : goodPartB p = true) : p ≠ [] := by
  rw [goodPartB] at h
  simp only [Bool.and_eq_true] at h
  simpa using h.1.1.1

theorem goodPartB_head {p : List Char} (h : goodPartB p = true) :
    isWsC (p.headD 'a') = false := by
  rw [goodPartB] at h
  simp only [Bool.and_eq_true] at h
  simpa using h.1.1.2

theorem goodPartB_last {p : List Char} (h : goodPartB p = true) :
    isWsC (p.getLastD 'a') = false := by
  rw [goodPartB] at h
  simp only [Bool.and_eq_true] at h
  simpa using h.1.2

theorem goodPartB_noFire {p : List Char} (h : goodPartB p = true) :
    noFireB none p = true := by
  rw [goodPartB] at h
  simp only [Bool.and_eq_true] at h
  exact h.2

theorem sentChain_first {p : List Char} {ps : List (List Char)}
    (h : SentChain (p :: ps)) : goodPartB p = true := by
  cases h with
  | single _ hp => exact hp
  | cons _ _ hp _ _ _ => exact hp

theorem joinSpL_headD {q : List Char} (rs : List (List Char)) (hq : q ≠ []) :
    (joinSpL (q :: rs)).headD 'a' = q.headD 'a' := by
  cases rs with
  | nil => rfl
  | cons r rs' =>
    rw [joinSpL_cons_ne (by simp)]
    cases q with
    | nil => exact absurd rfl hq
    | cons c cs => rfl

theorem join_split {ps : List (List Char)} (h : SentChain ps) :
    procPieces (sentAux false (joinSpL ps) []) = ps := by
  induction h with
  | nil => rfl
  | single p hp =>
    rw [show joinSpL [p] = p from rfl]
    rw [sentAux_no_fire p [] (goodPartB_noFire hp)]
    rw [List.reverse_nil, List.nil_append]
    have hstrip : stripL p = p := stripL_eq_self (goodPartB_head hp) (goodPartB_last hp)
    rw [procPieces_cons_kept (by rw [hstrip]; exact goodPartB_ne_nil hp), hstrip]
    rfl
  | cons p rest hp hpunct hrest hne ih =>
    rw [joinSpL_cons_ne hne]
    rw [sentAux_append p (' ' :: joinSpL rest) [] (goodPartB_noFire hp)]
    rw [List.append_nil]
    have hpne : p ≠ [] := goodPartB_ne_nil hp
    have hfire : fireB p.reverse ' ' = true := by
      rw [fireB_eq]
      have : p.reverse.head? = p.getLast? := List.head?_reverse p
      rw [this]
      rw [List.getLast?_eq_getLast p hpne]
      have : p.getLast hpne = p.getLastD 'a' := by
        rw [List.getLastD_eq_getLast?, List.getLast?_eq_getLast p hpne]; rfl
      simp only [punctO]
      rw [this, hpunct]
      rfl
    rw [sentAux, if_pos hfire, List.reverse_reverse]
    rcases hr : rest with _ | ⟨q, rs⟩
    · exact absurd hr hne
    · have hq : q ≠ [] := goodPartB_ne_nil (sentChain_first (hr ▸ hrest))
      have hjoin_ne : joinSpL rest ≠ [] := by
        rw [hr]; exact joinSpL_ne_nil hq
      have hjoin_hd : isWsC ((joinSpL rest).headD 'a') = false := by
        rw [hr, joinSpL_headD rs hq]
        exact goodPartB_head (sentChain_first (hr ▸ hrest))
      rw [← hr]
      rw [sentAux_true_step hjoin_ne hjoin_hd]
      have hstrip : stripL p = p := stripL_eq_self (goodPartB_head hp) (goodPartB_last hp)
      rw [procPieces_cons_kept (by rw [hstrip]; exact hpne), hstrip, ih]

theorem stripL_eq_nil_of_split_nil {l : List Char} (h : split_sentencesL l = []) :
    stripL l = [] := by
  by_contra hne
  exact split_sentencesL_ne_nil (hasNW_of_stripL_ne_nil hne) h

theorem getLastD_append_right {xs ys : List Char} (h : ys ≠ []) (d : Char) :
    (xs ++ ys).getLastD d = ys.getLastD d := by
  rw [List.getLastD_eq_getLast?, List.getLastD_eq_getLast?,
    List.getLast?_append_of_ne_nil _ h]

theorem joinSpL_last_ok {ps : List (List Char)} (h : SentChain ps) :
    lastOkB (joinSpL ps) = true := by
  induction h with
  | nil => rfl
  | single p hp =>
    rw [lastOkB, Bool.not_eq_true']
    exact goodPartB_last hp
  | cons p rest hp hpunct hrest hne ih =>
    rw [joinSpL_cons_ne hne, lastOkB, getLastD_append_right (by simp) 'a']
    have hjne : joinSpL rest ≠ [] := by
      rcases hr : rest with _ | ⟨q, rs⟩
      · exact absurd hr hne
      · exact joinSpL_ne_nil (goodPartB_ne_nil (sentChain_first (hr ▸ hrest)))
    rw [List.getLastD_cons, getLastD_irrel hjne ' ' 'a']
    exact ih

theorem stripL_joinSpL {ps : List (List Char)} (h : SentChain ps) (hne : ps ≠ []) :
    stripL (joinSpL ps) = joinSpL ps := by
  rcases hr : ps with _ | ⟨p, rest⟩
  · exact absurd hr hne
  · have hp : p ≠ [] := goodPartB_ne_nil (sentChain_first (hr ▸ h))
    apply stripL_eq_self
    · rw [joinSpL_headD rest hp]
      exact goodPartB_head (sentChain_first (hr ▸ h))
    · have := joinSpL_last_ok (hr ▸ h)
      rw [lastOkB, Bool.not_eq_true'] at this
      exact this

theorem split_take {l : List Char} {n : Nat} (hn : 1 ≤ n) :
    split_sentencesL (take_sentencesL l n) = (split_sentencesL l).take n := by
  rcases hs : split_sentencesL l with _ | ⟨p, ps⟩
  · rw [take_sentencesL, hs, if_pos rfl, stripL_eq_nil_of_split_nil hs, List.take_nil]
    rfl
  · rw [take_sentencesL, hs, if_neg (by simp)]
    have hchain : SentChain ((p :: ps).take n) :=
      sentChain_take (hs ▸ split_sentencesL_chain l) n
    have htne : (p :: ps).take n ≠ [] := by
      rcases n with _ | n
      · cases hn
      · simp
    rw [split_sentencesL_eq, stripL_joinSpL hchain htne, rawPieces, join_split hchain]

theorem take_sentencesL_join {l : List Char} (n : Nat) :
    take_sentencesL l n = joinSpL ((split_sentencesL l).take n) := by
  rcases hs : split_sentencesL l with _ | ⟨p, ps⟩
  · rw [take_sentencesL, hs, if_pos rfl, stripL_eq_nil_of_split_nil hs, List.take_nil]
    rfl
  · rw [take_sentencesL, hs, if_neg (by simp)]

/-! ### Lower-casing and placeholder substitution -/

theorem isWsC_ofNat_lower : ∀ n, n < 123 → 97 ≤ n → isWsC (Char.ofNat n) = false := by
  decide

theorem isWsC_lowC {c : Char} : isWsC (lowC c) = isWsC c := by
  rw [lowC]
  split
  · rename_i hc
    obtain ⟨h1, h2⟩ := (Bool.and_eq_true _ _).mp hc
    have hA : ('A' : Char) ≤ c := of_decide_eq_true h1
    have hZ : c ≤ ('Z' : Char) := of_decide_eq_true h2
    have hlow : isWsC (Char.ofNat (c.toNat + 32)) = false := by
      refine isWsC_ofNat_lower _ ?_ ?_
      · have : c.toNat ≤ 90 := hZ
        omega
      · have : 65 ≤ c.toNat := hA
        omega
    rw [hlow]
    symm
    rw [isWsC]
    have h65 : 65 ≤ c.toNat := hA
    refine Bool.or_eq_false_iff.mpr ⟨Bool.or_eq_false_iff.mpr ⟨Bool.or_eq_false_iff.mpr
      ⟨Bool.or_eq_false_iff.mpr ⟨Bool.or_eq_false_iff.mpr ⟨?_, ?_⟩, ?_⟩, ?_⟩, ?_⟩, ?_⟩ <;>
      · simp only [decide_eq_false_iff_not]
        intro hcv
        subst hcv
        simp at h65
  · rfl

theorem lowerL_head_not_ws {l : List Char} {d : Char} {ds : List Char}
    (h : lowerL l = d :: ds) (hd : isWsC d = false) :
    ∃ c cs, l = c :: cs ∧ isWsC c = false := by
  rcases l with _ | ⟨c, cs⟩
  · simp [lowerL] at h
  · refine ⟨c, cs, rfl, ?_⟩
    rw [lowerL, List.map_cons] at h
    obtain ⟨hcd, _⟩ := List.cons.inj h
    rw [← isWsC_lowC, hcd]
    exact hd

theorem rstripDotsL_eq_nil_or_cons (c : Char) (rest : List Char) :
    rstripDotsL (c :: rest) = [] ∨ rstripDotsL (c :: rest) = c :: rstripDotsL rest := by
  rw [rstripDotsL]
  split
  · exact Or.inl rfl
  · exact Or.inr rfl

theorem replCore_nil_subset (p : Char) (ps : List Char) :
    ∀ (fuel : Nat) (l : List Char) (a : Char), a ∈ replCore p ps [] fuel l → a ∈ l := by
  intro fuel
  induction fuel with
  | zero =>
    intro l a ha
    rcases l with _ | ⟨c, rest⟩
    · simp [replCore] at ha
    · simpa [replCore] using ha
  | succ fuel ih =>
    intro l a ha
    rcases l with _ | ⟨c, rest⟩
    · simp [replCore] at ha
    · rw [replCore] at ha
      split at ha
      · rw [List.nil_append] at ha
        exact List.mem_cons_of_mem c ((List.drop_sublist _ _).mem (ih _ a ha))
      · rcases List.mem_cons.1 ha with rfl | ha2
        · exact List.mem_cons_self a rest
        · exact List.mem_cons_of_mem c (ih rest a ha2)

theorem replCore_residual (p : Char) (ps rep : List Char) :
    ∀ (fuel : Nat) (l : List Char),
      hasNW (replCore p ps [] fuel l) = true → hasNW (replCore p ps rep fuel l) = true := by
  intro fuel
  induction fuel with
  | zero =>
    intro l h
    rcases l with _ | ⟨c, rest⟩
    · simpa [replCore] using h
    · simpa [replCore] using h
  | succ fuel ih =>
    intro l h
    rcases l with _ | ⟨c, rest⟩
    · simpa [replCore] using h
    · rw [replCore] at h ⊢
      split at h
      · rename_i hpre
        rw [if_pos hpre]
        rw [List.nil_append] at h
        rcases List.any_eq_true.1 (ih _ h) with ⟨a, ha, hnw⟩
        exact List.any_eq_true.2 ⟨a, List.mem_append_right _ ha, hnw⟩
      · rename_i hpre
        rw [if_neg hpre]
        rw [hasNW, List.any_cons] at h ⊢
        rcases (Bool.or_eq_true _ _).mp h with h1 | h1
        · simp [h1]
        · have := ih rest h1
          simp [hasNW] at this
          simp [this]

theorem replaceS_residual {s pat rep : String}
    (h : hasNW (replaceS s pat "").data = true) :
    hasNW (replaceS s pat rep).data = true := by
  rw [replaceS] at h ⊢
  rcases hp : pat.data with _ | ⟨p, ps⟩
  · rw [hp] at h
    exact h
  · rw [hp] at h
    exact replCore_residual p ps rep.data _ s.data h

theorem hasNW_of_replaceS_nil {s pat : String}
    (h : hasNW (replaceS s pat "").data = true) : hasNW s.data = true := by
  rw [replaceS] at h
  rcases hp : pat.data with _ | ⟨p, ps⟩
  · rw [hp] at h
    exact h
  · rw [hp] at h
    rcases List.any_eq_true.1 h with ⟨a, ha, hnw⟩
    exact List.any_eq_true.2 ⟨a, replCore_nil_subset p ps _ s.data a ha, hnw⟩

theorem mk_ne_empty {l : List Char} (h : l ≠ []) : String.mk l ≠ "" := by
  intro he
  exact h (congrArg String.data he)

theorem take_sentences_ne_empty {s : String} (h : hasNW s.data = true) :
    take_sentences s 3 ≠ "" :=
  mk_ne_empty (take_sentencesL_ne_nil h (by omega))

theorem first_sentenceL_head_not_ws {x : List Char} {c : Char} {cs : List Char}
    (h : first_sentenceL x = c :: cs) : isWsC c = false := by
  rw [first_sentenceL] at h
  rcases hs : split_sentencesL x with _ | ⟨s, ss⟩
  · rw [hs] at h
    exact stripL_head_not_ws h
  · rw [hs] at h
    subst h
    have := (split_sentencesL_mem (hs ▸ List.mem_cons_self _ ss)).2.1
    simpa using this



/-! ### Length bounds: every sanitizer stage shrinks or preserves length -/

theorem rstripL_length (l : List Char) : (rstripL l).length ≤ l.length :=
  (rstripL_sublist l).length_le

theorem stripL_length (l : List Char) : (stripL l).length ≤ l.length :=
  (stripL_sublist l).length_le

theorem spliceAux_length : ∀ (l : List Char),
    ((spliceAux none l).length ≤ l.length) ∧
    (∀ mid, (spliceAux (some mid) l).length ≤ mid.length + 1 + l.length) := by
  intro l
  induction l with
  | nil => exact ⟨by simp [spliceAux], fun mid => by simp [spliceAux]⟩
  | cons c rest ih =>
    refine ⟨?_, ?_⟩
    · rw [spliceAux]
      split
      · have := ih.2 []
        simp only [List.length_nil] at this
        simp only [List.length_cons]
        omega
      · have := ih.1
        simp only [List.length_cons]
        omega
    · intro mid
      rw [spliceAux]
      split
      · split
        · have := ih.2 []
          simp only [List.length_nil] at this
          simp only [List.length_cons]
          omega
        · have := ih.1
          simp only [List.length_cons, List.length_append, List.length_reverse]
          omega
      · have := ih.2 (c :: mid)
        simp only [List.length_cons] at this ⊢
        omega

theorem spliceBackticks_length (l : List Char) :
    (spliceBackticks l).length ≤ l.length := (spliceAux_length l).1

theorem removeUrls_length : ∀ (fuel : Nat) (l : List Char),
    (removeUrls fuel l).length ≤ l.length := by
  intro fuel
  induction fuel with
  | zero => intro l; cases l <;> simp [removeUrls]
  | succ fuel ih =>
    intro l
    rcases l with _ | ⟨c, rest⟩
    · simp [removeUrls]
    · rw [removeUrls]
      split
      · exact le_trans (ih _) (by simp [List.length_drop])
      · split
        · exact le_trans (ih _) (by simp [List.length_drop])
        · simp only [List.length_cons]
          have := ih rest
          omega

theorem replaceLinks_length : ∀ (fuel : Nat) (l : List Char),
    (replaceLinks fuel l).length ≤ l.length := by
  intro fuel
  induction fuel with
  | zero => intro l; cases l <;> simp [replaceLinks]
  | succ fuel ih =>
    intro l
    rcases l with _ | ⟨c, rest⟩
    · simp [replaceLinks]
    · rw [replaceLinks]
      split
      · dsimp only
        split
        · rename_i hcond
          simp only [List.length_append, List.length_cons]
          have hlab : (rest.takeWhile (fun x => x ≠ ']')).length ≤ rest.length :=
            (List.takeWhile_sublist _).length_le
          have := ih ((rest.drop ((rest.takeWhile (fun x => x ≠ ']')).length + 1)).drop 1
            |>.drop (((rest.drop ((rest.takeWhile (fun x => x ≠ ']')).length + 1)).drop 1
              |>.takeWhile (fun x => x ≠ ')')).length + 1))
          simp only [List.length_drop] at this
          omega
        · simp only [List.length_cons]
          have := ih rest
          omega
      · simp only [List.length_cons]
        have := ih rest
        omega

theorem removeStars_length (l : List Char) : (removeStars l).length ≤ l.length :=
  List.length_filter_le _ l

theorem stripLeadMd_length (l : List Char) : (stripLeadMd l).length ≤ l.length :=
  (List.dropWhile_sublist _).length_le

theorem unixAux_length : ∀ (fuel : Nat) (prev : Option Char) (l : List Char),
    (unixAux prev fuel l).length ≤ l.length := by
  intro fuel
  induction fuel with
  | zero => intro prev l; cases l <;> simp [unixAux]
  | succ fuel ih =>
    intro prev l
    rcases l with _ | ⟨c, rest⟩
    · simp [unixAux]
    · rw [unixAux.eq_def]
      dsimp only
      split
      · refine le_trans (ih _ _) ?_
        simp only [List.length_drop, List.length_cons]
        omega
      · simp only [List.length_cons]
        exact Nat.succ_le_succ (ih _ _)

theorem dottedAux_length : ∀ (fuel : Nat) (l : List Char),
    (dottedAux fuel l).length ≤ l.length := by
  intro fuel
  induction fuel with
  | zero => intro l; cases l <;> simp [dottedAux]
  | succ fuel ih =>
    intro l
    rcases l with _ | ⟨c, rest⟩
    · simp [dottedAux]
    · rw [dottedAux.eq_def]
      dsimp only
      split
      · split
        · split
          · refine le_trans (ih _) ?_
            simp only [List.length_drop, List.length_cons]
            omega
          · simp only [List.length_cons]
            exact Nat.succ_le_succ (ih _)
        · split
          · refine le_trans (ih _) ?_
            simp only [List.length_drop, List.length_cons]
            omega
          · simp only [List.length_cons]
            exact Nat.succ_le_succ (ih _)
        · simp only [List.length_cons]
          exact Nat.succ_le_succ (ih _)
      · simp only [List.length_cons]
        exact Nat.succ_le_succ (ih _)

theorem prepStripL_length (l : List Char) : (prepStripL l).length ≤ l.length := by
  rw [prepStripL]
  split
  · dsimp only
    split
    · simp only [List.length_reverse, List.length_drop]
      have h1 : (l.reverse.dropWhile isWsC).length ≤ l.length :=
        le_trans (List.dropWhile_sublist _).length_le (by simp)
      omega
    · exact Nat.le_refl _
  · exact Nat.le_refl _

theorem collapseAux_length : ∀ (l : List Char) (b : Bool),
    (collapseAux b l).length ≤ l.length := by
  intro l
  induction l with
  | nil => intro b; simp [collapseAux]
  | cons c rest ih =>
    intro b
    rw [collapseAux]
    split
    · split
      · have := ih true
        simp only [List.length_cons]
        omega
      · have := ih true
        simp only [List.length_cons]
        omega
    · have := ih false
      simp only [List.length_cons]
      omega

theorem clean_lineL_length (l : List Char) : (clean_lineL l).length ≤ l.length := by
  rw [clean_lineL, collapseWsL, strip_pathsL]
  refine le_trans (stripL_length _) ?_
  refine le_trans (collapseAux_length _ _) ?_
  refine le_trans (prepStripL_length _) ?_
  refine le_trans (dottedAux_length _ _) ?_
  refine le_trans (unixAux_length _ _ _) ?_
  refine le_trans (stripLeadMd_length _) ?_
  refine le_trans (removeStars_length _) ?_
  refine le_trans (replaceLinks_length _ _) ?_
  refine le_trans (removeUrls_length _ _) ?_
  exact spliceBackticks_length l

/-! ### The transcript scan on well-shaped entries -/

theorem scanBlocks_ws {bs : List PyVal} (hws : bs.all wsBlock = true) :
    ∀ s : String, scanBlocks bs (.str s) = .caught ∨
      ∃ s2, scanBlocks bs (.str s) = .done (.str s2) := by
  induction bs with
  | nil => intro s; exact Or.inr ⟨s, rfl⟩
  | cons b rest ih =>
    intro s
    rw [List.all_cons] at hws
    obtain ⟨hb, hrest⟩ := (Bool.and_eq_true _ _).mp hws
    rcases b with _ | _ | _ | _ | _ | kvs
    case dict =>
      rw [wsBlock] at hb
      rw [scanBlocks]
      rcases ht : pyLookup kvs "type" with _ | tv
      · simp only [ht]
        exact ih hrest s
      · rcases tv with _ | b2 | n2 | t | xs2 | kvs2
      
        · simp only [ht]; exact ih hrest s
        · simp only [ht]; exact ih hrest s
        · simp only [ht]; exact ih hrest s
        · simp only [ht] at hb
          simp only [ht]
          by_cases hteq : t = "text"
          · rw [if_pos hteq]
            rw [if_pos hteq] at hb
            rcases htx : pyLookup kvs "text" with _ | xv
            · simp [htx]
            · rcases xv with _ | b3 | n3 | s2 | xs3 | kvs3
            
              · simp only [htx] at hb; simp at hb
              · simp only [htx] at hb; simp at hb
              · simp only [htx] at hb; simp at hb
              · simp only [htx]; exact ih hrest s2
              · simp only [htx] at hb; simp at hb
              · simp only [htx] at hb; simp at hb
          · rw [if_neg hteq]
            exact ih hrest s
        · simp only [ht]; exact ih hrest s
        · simp only [ht]; exact ih hrest s
    all_goals simp [wsBlock] at hb

theorem scanEntry_ws {v : PyVal} (hws : wsEntry v = true) (s : String) :
    scanEntry v (.str s) = .caught ∨
      ∃ s2, scanEntry v (.str s) = .done (.str s2) := by
  rcases v with _ | _ | _ | _ | _ | kvs
  case dict =>
    rw [wsEntry] at hws
    rw [scanEntry]
    rcases ht : pyLookup kvs "type" with _ | tv
    · simp only [ht]
      exact Or.inr ⟨s, rfl⟩
    · rcases tv with _ | b2 | n2 | t | xs2 | kvs2
    
      · simp only [ht]; exact Or.inr ⟨s, rfl⟩
      · simp only [ht]; exact Or.inr ⟨s, rfl⟩
      · simp only [ht]; exact Or.inr ⟨s, rfl⟩
      · simp only [ht] at hws
        simp only [ht]
        by_cases hta : t = "assistant"
        · rw [if_pos hta]
          rw [if_pos hta] at hws
          rcases hm : (pyLookup kvs "message").getD (.dict []) with _ | b3 | n3 | s3 | xs3 | mkv
          
          · simp only [hm] at hws; simp at hws
          · simp only [hm] at hws; simp at hws
          · simp only [hm] at hws; simp at hws
          · simp only [hm] at hws; simp at hws
          · simp only [hm] at hws; simp at hws
          · simp only [hm] at hws
            rcases hc : (pyLookup mkv "content").getD (.list []) with _ | b4 | n4 | s4 | bs | kvs4
            
            · simp only [hc] at hws; simp at hws
            · simp only [hc] at hws; simp at hws
            · simp only [hc] at hws; simp at hws
            · simp only [hc] at hws; simp at hws
            · simp only [hc] at hws
              simp only [hm, hc, iterContent]
              exact scanBlocks_ws hws s
            · simp only [hc] at hws; simp at hws
        · rw [if_neg hta]
          exact Or.inr ⟨s, rfl⟩
      · simp only [ht]; exact Or.inr ⟨s, rfl⟩
      · simp only [ht]; exact Or.inr ⟨s, rfl⟩
  all_goals simp [wsEntry] at hws

theorem scanBlocks_strict {bs : List PyVal} (h : bs.all wsBlockStrict = true) :
    ∀ s : String,
      scanBlocks bs (.str s) = .done (.str ((bs.filterMap textOfBlock).getLastD s)) := by
  induction bs with
  | nil => intro s; rfl
  | cons b rest ih =>
    intro s
    rw [List.all_cons] at h
    obtain ⟨hb, hrest⟩ := (Bool.and_eq_true _ _).mp h
    rcases b with _ | _ | _ | _ | _ | kvs
    case dict =>
      rw [wsBlockStrict] at hb
      rw [scanBlocks]
      rcases ht : pyLookup kvs "type" with _ | tv
      · simp only [ht]
        rw [ih hrest s, List.filterMap_cons]
        simp only [textOfBlock, ht]
      · rcases tv with _ | b2 | n2 | t | xs2 | kvs2

        · simp only [ht]
          rw [ih hrest s, List.filterMap_cons]
          simp only [textOfBlock, ht]
        · simp only [ht]
          rw [ih hrest s, List.filterMap_cons]
          simp only [textOfBlock, ht]
        · simp only [ht]
          rw [ih hrest s, List.filterMap_cons]
          simp only [textOfBlock, ht]
        · simp only [ht] at hb
          simp only [ht]
          by_cases hteq : t = "text"
          · rw [if_pos hteq]
            rw [if_pos hteq] at hb
            rcases htx : pyLookup kvs "text" with _ | xv
            · simp only [htx] at hb; simp at hb
            · rcases xv with _ | b3 | n3 | s2 | xs3 | kvs3

              · simp only [htx] at hb; simp at hb
              · simp only [htx] at hb; simp at hb
              · simp only [htx] at hb; simp at hb
              · simp only [htx]
                rw [ih hrest s2, List.filterMap_cons]
                simp only [textOfBlock, ht, if_pos hteq, htx]
                rw [List.getLastD_cons]
              · simp only [htx] at hb; simp at hb
              · simp only [htx] at hb; simp at hb
          · rw [if_neg hteq]
            rw [ih hrest s, List.filterMap_cons]
            simp only [textOfBlock, ht, if_neg hteq]
        · simp only [ht]
          rw [ih hrest s, List.filterMap_cons]
          simp only [textOfBlock, ht]
        · simp only [ht]
          rw [ih hrest s, List.filterMap_cons]
          simp only [textOfBlock, ht]
    all_goals simp [wsBlockStrict] at hb

theorem scanEntry_strict {v : PyVal} (h : wsEntryStrict v = true) (s : String) :
    scanEntry v (.str s) =
      .done (.str (if isAssistantEntry v then (textBlockStrs v).getLastD s else s)) := by
  rcases v with _ | _ | _ | _ | _ | kvs
  case dict =>
    rw [wsEntryStrict] at h
    rw [scanEntry]
    rcases ht : pyLookup kvs "type" with _ | tv
    · have hA : isAssistantEntry (PyVal.dict kvs) = false := by
        rw [isAssistantEntry]; simp [ht]
      simp [ht, hA]
    · rcases tv with _ | b2 | n2 | t | xs2 | kvs2

      · have hA : isAssistantEntry (PyVal.dict kvs) = false := by
          rw [isAssistantEntry]; simp [ht]
        simp [ht, hA]
      · have hA : isAssistantEntry (PyVal.dict kvs) = false := by
          rw [isAssistantEntry]; simp [ht]
        simp [ht, hA]
      · have hA : isAssistantEntry (PyVal.dict kvs) = false := by
          rw [isAssistantEntry]; simp [ht]
        simp [ht, hA]
      · simp only [ht] at h
        simp only [ht]
        by_cases hta : t = "assistant"
        · rw [if_pos hta]
          rw [if_pos hta] at h
          have hA : isAssistantEntry (PyVal.dict kvs) = true := by
            rw [isAssistantEntry]; simp [ht, hta]
          rcases hm : (pyLookup kvs "message").getD (.dict []) with _ | b3 | n3 | s3 | xs3 | mkv

          · simp only [hm] at h; simp at h
          · simp only [hm] at h; simp at h
          · simp only [hm] at h; simp at h
          · simp only [hm] at h; simp at h
          · simp only [hm] at h; simp at h
          · simp only [hm] at h
            rcases hc : (pyLookup mkv "content").getD (.list []) with _ | b4 | n4 | s4 | bs | kvs4

            · simp only [hc] at h; simp at h
            · simp only [hc] at h; simp at h
            · simp only [hc] at h; simp at h
            · simp only [hc] at h; simp at h
            · simp only [hc] at h
              simp only [hm, hc, iterContent]
              rw [scanBlocks_strict h s]
              simp [textBlockStrs, contentOf, hm, hc, hA]
            · simp only [hc] at h; simp at h
        · rw [if_neg hta]
          have hA : isAssistantEntry (PyVal.dict kvs) = false := by
            rw [isAssistantEntry]; simp [ht, hta]
          simp [hA]
      · have hA : isAssistantEntry (PyVal.dict kvs) = false := by
          rw [isAssistantEntry]; simp [ht]
        simp [ht, hA]
      · have hA : isAssistantEntry (PyVal.dict kvs) = false := by
          rw [isAssistantEntry]; simp [ht]
        simp [ht, hA]
  all_goals simp [wsEntryStrict] at h

theorem assistantEntries_cons (l : TLine) (rest : List TLine) :
    assistantEntries (l :: rest) =
      match entryOf l with
      | some v => v :: assistantEntries rest
      | none => assistantEntries rest := by
  rw [assistantEntries, List.filterMap_cons]
  rcases h : entryOf l with _ | v <;> simp [h, assistantEntries]

theorem scanLines_strict {lines : List TLine}
    (h : ∀ l ∈ lines, wsLineStrict l = true) :
    ∀ s : String, scanLines lines (.str s) = .done (.str (lastTextFold lines s)) := by
  induction lines with
  | nil => intro s; rfl
  | cons l rest ih =>
    intro s
    have hrest : ∀ x ∈ rest, wsLineStrict x = true :=
      fun x hx => h x (List.mem_cons_of_mem l hx)
    rcases l with _ | _ | v
    · rw [scanLines, ih hrest s]
      have hfold : lastTextFold (TLine.blank :: rest) s = lastTextFold rest s := by
        simp [lastTextFold, assistantEntries_cons, entryOf]
      rw [hfold]
    · have := h _ (List.mem_cons_self _ rest)
      simp [wsLineStrict] at this
    · have hv : wsEntryStrict v = true := h _ (List.mem_cons_self _ rest)
      rw [scanLines, scanEntry_strict hv s]
      by_cases ha : isAssistantEntry v = true
      · rw [if_pos ha]
        show scanLines rest (.str ((textBlockStrs v).getLastD s)) = _
        rw [ih hrest _]
        have hfold : lastTextFold (TLine.parsed v :: rest) s =
            lastTextFold rest ((textBlockStrs v).getLastD s) := by
          simp [lastTextFold, assistantEntries_cons, entryOf, ha]
        rw [hfold]
      · rw [if_neg ha]
        show scanLines rest (.str s) = _
        rw [ih hrest s]
        have hfold : lastTextFold (TLine.parsed v :: rest) s = lastTextFold rest s := by
          simp [lastTextFold, assistantEntries_cons, entryOf, ha]
        rw [hfold]

theorem pick_template_spec (pers : Pers) (k : String) (draws : List Nat) :
    (persGet pers k = [] ∧ pick_template pers k draws = (none, draws)) ∨
    (∃ t, t ∈ persGet pers k ∧ pick_template pers k draws = (some t, draws.tail)) := by
  rw [pick_template]
  by_cases he : (persGet pers k).isEmpty = true
  · rw [if_pos he]
    exact Or.inl ⟨List.isEmpty_iff.1 he, rfl⟩
  · rw [if_neg he]
    have hne : persGet pers k ≠ [] := by
      intro h
      exact he (by simp [h])
    have hlt : (draws.headD 0 % (persGet pers k).length) < (persGet pers k).length :=
      Nat.mod_lt _ (List.length_pos.2 hne)
    refine Or.inr ⟨_, ?_, rfl⟩
    rw [List.getD_eq_getElem _ _ hlt]
    exact List.getElem_mem hlt

theorem lastTextFold_last {lines : List TLine} (hne : assistantEntries lines ≠ [])
    (htx : textBlockStrs ((assistantEntries lines).getLastD PyVal.null) ≠ [])
    (s : String) :
    lastTextFold lines s =
      (textBlockStrs ((assistantEntries lines).getLastD PyVal.null)).getLastD "" := by
  rw [lastTextFold]
  have hd : (assistantEntries lines).getLastD PyVal.null =
      (assistantEntries lines).getLast hne := by
    rw [List.getLastD_eq_getLast?, List.getLast?_eq_getLast _ hne]
    rfl
  conv_lhs => rw [← List.dropLast_append_getLast hne]
  rw [List.foldl_append]
  simp only [List.foldl_cons, List.foldl_nil]
  rw [hd] at htx ⊢
  exact getLastD_irrel htx _ _

theorem scanLines_ws {lines : List TLine} (hws : ∀ l ∈ lines, wsLine l = true) :
    ∀ s : String,
      (scanLines lines (.str s) = .caught ∨
        ∃ s2, scanLines lines (.str s) = .done (.str s2)) ∧
      (TLine.malformed ∈ lines → scanLines lines (.str s) = .caught) := by
  induction lines with
  | nil =>
    intro s
    exact ⟨Or.inr ⟨s, rfl⟩, by intro h; cases h⟩
  | cons l rest ih =>
    intro s
    have hrest : ∀ x ∈ rest, wsLine x = true := fun x hx => hws x (List.mem_cons_of_mem l hx)
    rcases l with _ | _ | v
    · rw [scanLines]
      refine ⟨(ih hrest s).1, fun hm => ?_⟩
      exact (ih hrest s).2 (by
        rcases List.mem_cons.1 hm with h | h
        · cases h
        · exact h)
    · exact ⟨Or.inl rfl, fun _ => rfl⟩
    · have hv : wsEntry v = true := hws _ (List.mem_cons_self _ _)
      rw [scanLines]
      rcases scanEntry_ws hv s with he | ⟨s2, he⟩
      · rw [he]
        exact ⟨Or.inl rfl, fun _ => rfl⟩
      · rw [he]
        refine ⟨(ih hrest s2).1, fun hm => ?_⟩
        exact (ih hrest s2).2 (by
          rcases List.mem_cons.1 hm with h | h
          · cases h
          · exact h)

/-! ### Non-emptiness of resolved messages

The output invariant "absent or non-empty" holds under provisos on the
templates: every effective static template and every personality
template keeps some non-whitespace character outside its placeholder
(`removePh`), the static table retains the `stop` and
`notification_default` keys, and transcript extraction succeeds.  The
lemmas below establish it branch by branch. -/

theorem str_ne_empty_of_hasNW {v : String} (h : hasNW v.data = true) : v ≠ "" := by
  intro he
  subst he
  exact absurd h (by decide)

theorem hasNW_stripL {l : List Char} (h : hasNW l = true) : hasNW (stripL l) = true := by
  rcases hs : stripL l with _ | ⟨c, cs⟩
  · exact absurd hs (stripL_ne_nil_of_hasNW h)
  · exact hasNW_of_mem (List.mem_cons_self c cs) (stripL_head_not_ws hs)

theorem stripS_hasNW {x : String} (h : hasNW x.data = true) :
    hasNW (stripS x).data = true := hasNW_stripL h

theorem msgsGet_cases (msgs : Msgs) (k d : String) :
    (msgs.find? (fun kv => kv.1 = k) = none ∧ msgsGet msgs k d = d) ∨
    (∃ kv, kv ∈ msgs ∧ kv.1 = k ∧ msgsGet msgs k d = kv.2) := by
  rcases hf : msgs.find? (fun kv => kv.1 = k) with _ | kv
  · exact Or.inl ⟨hf, by simp only [msgsGet, hf]⟩
  · refine Or.inr ⟨kv, List.mem_of_find?_eq_some hf, ?_, by simp only [msgsGet, hf]⟩
    simpa using List.find?_some hf

theorem persGet_mem {pers : Pers} {k t : String} (ht : t ∈ persGet pers k) :
    ∃ kv, kv ∈ pers ∧ kv.1 = k ∧ t ∈ kv.2 := by
  rcases hf : pers.find? (fun kv => kv.1 = k) with _ | kv
  · simp only [persGet, hf] at ht
    cases ht
  · simp only [persGet, hf] at ht
    refine ⟨kv, List.mem_of_find?_eq_some hf, ?_, ht⟩
    simpa using List.find?_some hf

theorem getD_mod_mem {α : Type} {l : List α} (h : l ≠ []) (i : Nat) (d : α) :
    l.getD (i % l.length) d ∈ l := by
  have hlt : i % l.length < l.length := Nat.mod_lt _ (List.length_pos.2 h)
  rw [List.getD_eq_getElem _ _ hlt]
  exact List.getElem_mem hlt

theorem removePh_stop (v : String) : removePh "stop" v = replaceS v "{summary}" "" := by
  rw [removePh, if_pos rfl]

theorem removePh_prompt_key (k v : String) (h1 : k ≠ "stop")
    (h2 : startsWithS k "notification" = false) :
    removePh k v = replaceS v "{prompt}" "" := by
  rw [removePh, if_neg h1, if_neg (by rw [h2]; exact Bool.false_ne_true)]

theorem startsWithS_notification (ntype : String) :
    startsWithS ("notification_" ++ ntype) "notification" = true := by
  show ("notification".data).isPrefixOf ("notification_" ++ ntype).data = true
  rw [ List.isPrefixOf_iff_prefix]
  refine ⟨'_' :: ntype.data, ?_⟩
  show "notification".data ++ ('_' :: ntype.data) = ("notification_" ++ ntype).data
  rw [String.data_append]
  rfl

theorem key_ne_stop (ntype : String) : ("notification_" ++ ntype) ≠ "stop" := by
  intro h
  have hlen : ("notification_" ++ ntype).length = "stop".length := congrArg String.length h
  rw [String.length_append] at hlen
  have h13 : "notification_".length = 13 := rfl
  have h4 : "stop".length = 4 := rfl
  omega

theorem removePh_notification_key (ntype v : String) :
    removePh ("notification_" ++ ntype) v = replaceS v "{message}" "" := by
  rw [removePh, if_neg (key_ne_stop ntype), if_pos (startsWithS_notification ntype)]

theorem replaceS_prompt_self (p : String) :
    (replaceS "{prompt}" "{prompt}" p).data = p.data ++ [] := rfl

theorem clean_promptL_head {l : List Char} {c : Char} {cs : List Char}
    (h : clean_promptL l = c :: cs) : isWsC c = false := by
  simp only [clean_promptL] at h
  rcases hg : get_speakable_linesL l with _ | ⟨first, rest⟩
  · rw [hg] at h
    cases h
  · rw [hg] at h
    exact first_sentenceL_head_not_ws h

theorem clean_prompt_cases (p : String) :
    clean_prompt p = "" ∨ hasNW (clean_prompt p).data = true := by
  rcases hc : clean_promptL p.data with _ | ⟨c, cs⟩
  · left
    show String.mk (clean_promptL p.data) = ""
    rw [hc]
  · right
    show hasNW (clean_promptL p.data) = true
    rw [hc]
    exact hasNW_of_mem (List.mem_cons_self _ _) (clean_promptL_head hc)

theorem rmPromptCfg_ne (prompt : String) (msgs : Msgs)
    (hmsgs : ∀ kv, kv ∈ msgs → hasNW (removePh kv.1 kv.2).data = true)
    (hprompt : prompt = "" ∨ hasNW prompt.data = true) :
    ∃ s, rmPromptCfg prompt msgs = some s ∧ s ≠ "" := by
  rw [rmPromptCfg]
  by_cases hc : containsS (msgsGet msgs "prompt_submit" "{prompt}") "{prompt}" = true
  · rw [if_pos hc]
    by_cases hp : prompt = ""
    · rw [if_pos hp]
      refine ⟨_, rfl, ?_⟩
      rcases msgsGet_cases msgs "prompt_submit_fallback" "On it." with ⟨_, hge⟩ | ⟨kv, hm, hk, hge⟩
      · rw [hge]
        decide
      · rw [hge]
        have hres := hmsgs kv hm
        rw [hk, removePh_prompt_key _ _ (by decide) (by decide)] at hres
        exact str_ne_empty_of_hasNW (hasNW_of_replaceS_nil hres)
    · rw [if_neg hp]
      refine ⟨_, rfl, take_sentences_ne_empty ?_⟩
      rcases msgsGet_cases msgs "prompt_submit" "{prompt}" with ⟨_, hge⟩ | ⟨kv, hm, hk, hge⟩
      · rw [hge, replaceS_prompt_self, List.append_nil]
        rcases hprompt with h | h
        · exact absurd h hp
        · exact h
      · rw [hge]
        apply replaceS_residual
        have hres := hmsgs kv hm
        rw [hk, removePh_prompt_key _ _ (by decide) (by decide)] at hres
        exact hres
  · rw [if_neg hc]
    refine ⟨_, rfl, ?_⟩
    rcases msgsGet_cases msgs "prompt_submit" "{prompt}" with ⟨_, hge⟩ | ⟨kv, hm, hk, hge⟩
    · rw [hge] at hc
      exact absurd (by decide) hc
    · rw [hge]
      have hres := hmsgs kv hm
      rw [hk, removePh_prompt_key _ _ (by decide) (by decide)] at hres
      exact str_ne_empty_of_hasNW (hasNW_of_replaceS_nil hres)

theorem rmPrompt_ne (ev : Event) (msgs : Msgs) (pers : Pers) (draws : List Nat)
    (hmsgs : ∀ kv, kv ∈ msgs → hasNW (removePh kv.1 kv.2).data = true)
    (hpers : ∀ kv, kv ∈ pers → ∀ t, t ∈ kv.2 → hasNW (removePh kv.1 t).data = true) :
    ∃ s, rmPrompt ev msgs pers draws = some s ∧ s ≠ "" := by
  have hpersP : ∀ t, t ∈ persGet pers "prompt_submit" →
      hasNW (replaceS t "{prompt}" "").data = true := by
    intro t ht
    obtain ⟨kv, hkvm, hk, htin⟩ := persGet_mem ht
    have hres := hpers kv hkvm t htin
    rw [hk, removePh_prompt_key _ _ (by decide) (by decide)] at hres
    exact hres
  rw [rmPrompt]
  dsimp only
  rcases pick_template_spec pers "prompt_submit" draws with ⟨hp, he⟩ | ⟨t, hmem, he⟩
  · simp only [he]
    exact rmPromptCfg_ne _ msgs hmsgs (clean_prompt_cases _)
  · simp only [he]
    by_cases ht : t = ""
    · rw [if_neg (fun h => h ht)]
      exact rmPromptCfg_ne _ msgs hmsgs (clean_prompt_cases _)
    · rw [if_pos ht]
      split
      · split
        · refine ⟨_, rfl, ?_⟩
          rcases msgsGet_cases msgs "prompt_submit" "On it." with ⟨_, hge⟩ | ⟨kv, hm, hk, hge⟩
          · rw [hge]
            decide
          · rw [hge]
            have hres := hmsgs kv hm
            rw [hk, removePh_prompt_key _ _ (by decide) (by decide)] at hres
            exact str_ne_empty_of_hasNW (hasNW_of_replaceS_nil hres)
        · rename_i hemp
          refine ⟨_, rfl, ?_⟩
          have hnpne : ((persGet pers "prompt_submit").filter
              (fun x => !containsS x "{prompt}")) ≠ [] := by
            intro h
            exact hemp (by rw [h]; rfl)
          have hmem2 := getD_mod_mem hnpne
            (((some t, draws.tail) : Option String × List Nat).2.headD 0) ""
          have hmem3 := List.mem_of_mem_filter hmem2
          exact str_ne_empty_of_hasNW (hasNW_of_replaceS_nil (hpersP _ hmem3))
      · refine ⟨_, rfl, take_sentences_ne_empty (replaceS_residual (hpersP t hmem))⟩

theorem stopSummaryE_ok (ev : Event) (fs : FS)
    (hfs : ∀ p, ∃ s, extract_summary (fs p) = .ok s) :
    ∃ s, stopSummaryE ev fs = .ok s := by
  rw [stopSummaryE]
  dsimp only
  by_cases h0 : ev.transcript_summary.getD "" = ""
  · rw [if_pos h0]
    by_cases h1 : ev.transcript_path.getD "" = ""
    · rw [if_pos h1]
      exact ⟨"", rfl⟩
    · rw [if_neg h1]
      exact hfs _
  · rw [if_neg h0]
    exact ⟨_, rfl⟩

theorem summary_hasNW_of_pfx {t s : String}
    (hpfx : lowerS (String.mk (rstripDotsL (stripL (beforeFirstS t "{summary}").data))) ≠ "")
    (hstart : startsWithS (lowerS s)
      (lowerS (String.mk (rstripDotsL (stripL (beforeFirstS t "{summary}").data)))) = true) :
    hasNW s.data = true := by
  have hXne : rstripDotsL (stripL (beforeFirstS t "{summary}").data) ≠ [] := by
    intro h
    apply hpfx
    show String.mk (lowerL (rstripDotsL (stripL (beforeFirstS t "{summary}").data))) = ""
    rw [h]
    rfl
  rcases hs : stripL (beforeFirstS t "{summary}").data with _ | ⟨c, r⟩
  · rw [hs] at hXne
    exact absurd rfl hXne
  · have hc : isWsC c = false := stripL_head_not_ws hs
    rw [hs] at hXne hstart
    rcases rstripDotsL_eq_nil_or_cons c r with h2 | h2
    · exact absurd h2 hXne
    · rw [h2] at hstart
      have hpre : (lowC c :: lowerL (rstripDotsL r)) <+: lowerL s.data :=
        List.isPrefixOf_iff_prefix.mp hstart
      rcases hpre with ⟨tl, htl⟩
      have hhead : lowerL s.data = lowC c :: (lowerL (rstripDotsL r) ++ tl) := by
        rw [← htl]
        rfl
      obtain ⟨d, ds, hds, hdws⟩ := lowerL_head_not_ws hhead (by rw [isWsC_lowC]; exact hc)
      rw [hds]
      exact hasNW_of_mem (List.mem_cons_self _ _) hdws

theorem rmStopCfg_ne (summary : String) (msgs : Msgs)
    (hmsgs : ∀ kv, kv ∈ msgs → hasNW (removePh kv.1 kv.2).data = true)
    (hstop : msgs.find? (fun kv => kv.1 = "stop") ≠ none) :
    ∃ s, rmStopCfg summary msgs = some s ∧ s ≠ "" := by
  have hT : hasNW (replaceS (msgsGet msgs "stop" "{summary}") "{summary}" "").data = true := by
    rcases msgsGet_cases msgs "stop" "{summary}" with ⟨hf, _⟩ | ⟨kv, hm, hk, hge⟩
    · exact absurd hf hstop
    · rw [hge]
      have hres := hmsgs kv hm
      rw [hk, removePh_stop] at hres
      exact hres
  rw [rmStopCfg]
  dsimp only
  by_cases hsum : summary = ""
  · rw [if_pos hsum]
    exact ⟨_, rfl, take_sentences_ne_empty (stripS_hasNW hT)⟩
  · rw [if_neg hsum]
    refine ⟨_, rfl, take_sentences_ne_empty ?_⟩
    split
    · rename_i hcond
      obtain ⟨h1, h2⟩ := (Bool.and_eq_true _ _).mp hcond
      exact summary_hasNW_of_pfx (of_decide_eq_true h1) h2
    · exact replaceS_residual hT

theorem rmStop_ne (ev : Event) (msgs : Msgs) (pers : Pers) (draws : List Nat) (fs : FS)
    (hmsgs : ∀ kv, kv ∈ msgs → hasNW (removePh kv.1 kv.2).data = true)
    (hpers : ∀ kv, kv ∈ pers → ∀ t, t ∈ kv.2 → hasNW (removePh kv.1 t).data = true)
    (hstop : msgs.find? (fun kv => kv.1 = "stop") ≠ none)
    (hfs : ∀ p, ∃ s, extract_summary (fs p) = .ok s) :
    rmStop ev msgs pers draws fs = .ok none ∨
    ∃ s, rmStop ev msgs pers draws fs = .ok (some s) ∧ s ≠ "" := by
  rw [rmStop]
  by_cases hact : ev.stop_hook_active.getD false = true
  · rw [if_pos hact]
    exact Or.inl rfl
  · rw [if_neg hact]
    obtain ⟨summary, hsum⟩ := stopSummaryE_ok ev fs hfs
    rw [hsum]
    right
    dsimp only
    rcases pick_template_spec pers "stop" draws with ⟨hp, he⟩ | ⟨t, hmem, he⟩
    · simp only [he]
      obtain ⟨s, hs, hne⟩ := rmStopCfg_ne summary msgs hmsgs hstop
      exact ⟨s, by rw [hs], hne⟩
    · simp only [he]
      by_cases ht : t = ""
      · rw [if_neg (fun h => h ht)]
        obtain ⟨s, hs, hne⟩ := rmStopCfg_ne summary msgs hmsgs hstop
        exact ⟨s, by rw [hs], hne⟩
      · rw [if_pos ht]
        have hT : hasNW (replaceS t "{summary}" "").data = true := by
          obtain ⟨kv, hkvm, hk, htin⟩ := persGet_mem hmem
          have hres := hpers kv hkvm t htin
          rw [hk, removePh_stop] at hres
          exact hres
        refine ⟨_, rfl, take_sentences_ne_empty ?_⟩
        split
        · exact stripS_hasNW hT
        · exact replaceS_residual hT

theorem rmNotifCfg_ne (ev : Event) (msgs : Msgs) (ntype : String)
    (hmsgs : ∀ kv, kv ∈ msgs → hasNW (removePh kv.1 kv.2).data = true)
    (hdflt : msgs.find? (fun kv => kv.1 = "notification_default") ≠ none) :
    ∃ s, rmNotifCfg ev msgs ("notification_" ++ ntype) = some s ∧ s ≠ "" := by
  rw [rmNotifCfg]
  refine ⟨_, rfl, take_sentences_ne_empty (replaceS_residual ?_)⟩
  rcases msgsGet_cases msgs ("notification_" ++ ntype)
      (msgsGet msgs "notification_default" "{message}") with ⟨_, hge⟩ | ⟨kv, hm, hk, hge⟩
  · rw [hge]
    rcases msgsGet_cases msgs "notification_default" "{message}" with ⟨hf, _⟩ |
        ⟨kv2, hm2, hk2, hge2⟩
    · exact absurd hf hdflt
    · rw [hge2]
      have hres := hmsgs kv2 hm2
      rw [hk2, removePh, if_neg (by decide), if_pos (by decide)] at hres
      exact hres
  · rw [hge]
    have hres := hmsgs kv hm
    rw [hk, removePh_notification_key] at hres
    exact hres

theorem notif_pick_hasNW {pers : Pers} {k t : String} {draws rest : List Nat}
    (hpers : ∀ kv, kv ∈ pers → ∀ u, u ∈ kv.2 → hasNW (removePh kv.1 u).data = true)
    (hk : startsWithS k "notification" = true) (hk2 : k ≠ "stop")
    (he : pick_template pers k draws = (some t, rest)) :
    hasNW (replaceS t "{message}" "").data = true := by
  rcases pick_template_spec pers k draws with ⟨_, he2⟩ | ⟨u, hmem, he2⟩
  · rw [he2] at he
    exact absurd (congrArg Prod.fst he) (by simp)
  · rw [he2] at he
    have hut : u = t := Option.some.inj (congrArg Prod.fst he)
    subst hut
    obtain ⟨kv, hkvm, hkk, hin⟩ := persGet_mem hmem
    have hres := hpers kv hkvm u hin
    rw [hkk, removePh, if_neg hk2, if_pos hk] at hres
    exact hres

theorem rmNotif_ne (ev : Event) (msgs : Msgs) (pers : Pers) (draws : List Nat)
    (hmsgs : ∀ kv, kv ∈ msgs → hasNW (removePh kv.1 kv.2).data = true)
    (hpers : ∀ kv, kv ∈ pers → ∀ t, t ∈ kv.2 → hasNW (removePh kv.1 t).data = true)
    (hdflt : msgs.find? (fun kv => kv.1 = "notification_default") ≠ none) :
    ∃ s, rmNotif ev msgs pers draws = some s ∧ s ≠ "" := by
  rw [rmNotif]
  rcases hp2 : (if !truthyO (pick_template pers
        ("notification_" ++ ev.notification_type.getD "") draws).1 &&
        decide (ev.notification_type.getD "" = "idle_prompt") then
      pick_template pers "notification_idle_prompt" (pick_template pers
        ("notification_" ++ ev.notification_type.getD "") draws).2
    else pick_template pers ("notification_" ++ ev.notification_type.getD "") draws).1
    with _ | t
  · exact rmNotifCfg_ne ev msgs _ hmsgs hdflt
  · show ∃ s, (if t ≠ "" then
        some (take_sentences (replaceS t "{message}" (ev.message.getD "")) 3)
      else rmNotifCfg ev msgs ("notification_" ++ ev.notification_type.getD "")) =
        some s ∧ s ≠ ""
    by_cases ht : t = ""
    · rw [if_neg (fun h => h ht)]
      exact rmNotifCfg_ne ev msgs _ hmsgs hdflt
    · rw [if_pos ht]
      refine ⟨_, rfl, take_sentences_ne_empty (replaceS_residual ?_)⟩
      rcases hsp : (if !truthyO (pick_template pers
            ("notification_" ++ ev.notification_type.getD "") draws).1 &&
            decide (ev.notification_type.getD "" = "idle_prompt") then
          pick_template pers "notification_idle_prompt" (pick_template pers
            ("notification_" ++ ev.notification_type.getD "") draws).2
        else pick_template pers ("notification_" ++ ev.notification_type.getD "") draws)
        with ⟨o, rest⟩
      have ho : o = some t := by
        rw [hsp] at hp2
        exact hp2
      subst ho
      rw [hsp] at hp2
      by_cases hcond : (!truthyO (pick_template pers
            ("notification_" ++ ev.notification_type.getD "") draws).1 &&
          decide (ev.notification_type.getD "" = "idle_prompt")) = true
      · rw [if_pos hcond] at hsp
        exact notif_pick_hasNW hpers (by decide) (by decide) hsp
      · rw [if_neg hcond] at hsp
        exact notif_pick_hasNW hpers (startsWithS_notification _) (key_ne_stop _) hsp

/-! ## Claims

Each claim of the specification is settled below: the theorem states the
claim (or its amendment), a `_cex` theorem exhibits a concrete
counterexample where the claim as frozen fails, and a `_witness`
theorem instantiates a hypothesis-bearing theorem at a concrete input. -/

/-- C7: for every Stop event with `stop_hook_active` set to true,
`resolve_message` returns absent (`None`), regardless of all other event
fields, the configuration, and the personality set. -/
theorem stop_hook_active_suppresses (ev : Event) (cfg : Config) (pers : Pers)
    (draws : List Nat) (fs : FS)
    (hhook : ev.hook_event_name.getD "" = "Stop")
    (hact : ev.stop_hook_active = some true) :
    resolve_message ev cfg pers draws fs = .ok none := by
  simp [resolve_message, rmStop, hhook, hact]

theorem stop_hook_active_suppresses_witness :
    resolve_message (Event.mk (some "Stop") none (some true)
      (some "Fixed the bug.") (some "p") none none)
      (Config.mk none) [] [] (fun _ => none) = .ok none :=
  stop_hook_active_suppresses _ _ _ _ _ rfl rfl

/-- C8: for every event whose `hook_event_name` is none of
`UserPromptSubmit`, `Stop` and `Notification` — including the empty
event — `resolve_message` returns absent (`None`), never an error. -/
theorem unknown_event_absent (ev : Event) (cfg : Config) (pers : Pers)
    (draws : List Nat) (fs : FS)
    (h1 : ev.hook_event_name.getD "" ≠ "UserPromptSubmit")
    (h2 : ev.hook_event_name.getD "" ≠ "Stop")
    (h3 : ev.hook_event_name.getD "" ≠ "Notification") :
    resolve_message ev cfg pers draws fs = .ok none := by
  rw [resolve_message, if_neg h1, if_neg h2, if_neg h3]

theorem unknown_event_absent_witness :
    resolve_message (Event.mk none none none none none none none)
      (Config.mk none) [] [] (fun _ => none) = .ok none :=
  unknown_event_absent _ _ _ _ _ (by decide) (by decide) (by decide)

/-- C9: for every Notification event whose derived key
`notification_{type}` has no personality templates, the resolved text is
the static template under that key, else the static
`notification_default` template, else the literal template, with the
placeholder replaced by the raw message or the literal "Notification"
when the message field is absent, reduced to at most 3 sentences. -/
theorem notification_fallback (ev : Event) (cfg : Config) (pers : Pers)
    (draws : List Nat) (fs : FS)
    (hhook : ev.hook_event_name.getD "" = "Notification")
    (hmiss : persGet pers ("notification_" ++ ev.notification_type.getD "") = []) :
    resolve_message ev cfg pers draws fs =
      .ok (some (take_sentences (replaceS
        (msgsGet (cfg.messages.getD defaultMessages)
          ("notification_" ++ ev.notification_type.getD "")
          (msgsGet (cfg.messages.getD defaultMessages) "notification_default" "{message}"))
        "{message}" (ev.message.getD "Notification")) 3)) := by
  rw [resolve_message, if_neg (by rw [hhook]; decide), if_neg (by rw [hhook]; decide),
    if_pos hhook]
  by_cases hn : ev.notification_type.getD "" = "idle_prompt"
  · have hmiss2 : persGet pers "notification_idle_prompt" = [] := by
      rw [hn] at hmiss
      exact hmiss
    simp [rmNotif, rmNotifCfg, pick_template, hmiss, hmiss2, hn, truthyO]
  · simp [rmNotif, rmNotifCfg, pick_template, hmiss, hn, truthyO]

theorem notification_fallback_witness :
    resolve_message (Event.mk (some "Notification") none none none none none none)
      (Config.mk none) [] [] (fun _ => none) = .ok (some "Notification") :=
  (notification_fallback (Event.mk (some "Notification") none none none none none none)
    (Config.mk none) [] [] (fun _ => none) rfl rfl).trans (by decide)

/-- C10 counterexample: with a personality whose `notification_idle_prompt`
list contains the empty string, the second draw of the retry can pick a
template where the retry-free variant falls through to the static
configuration, so the two functions disagree. -/
theorem notification_retry_cex :
    resolve_message
        (Event.mk (some "Notification") none none none none
          (some "idle_prompt") (some "waiting"))
        (Config.mk none) [("notification_idle_prompt", ["", "Ping."])] [0, 1]
        (fun _ => none) =
      .ok (some "Ping.") ∧
    resolve_message_noretry
        (Event.mk (some "Notification") none none none none
          (some "idle_prompt") (some "waiting"))
        (Config.mk none) [("notification_idle_prompt", ["", "Ping."])] [0, 1]
        (fun _ => none) =
      .ok (some "Waiting for your input.") ∧
    (Except.ok (some "Ping.") : Except PyErr (Option String)) ≠
      .ok (some "Waiting for your input.") := by
  refine ⟨by decide, by decide, by decide⟩

/-- C10 (amended): provided the personality's `notification_idle_prompt`
template list contains no empty string — which `_load_personality`
guarantees — `resolve_message` is extensionally equal to the variant
with the idle-prompt retry branch removed. -/
theorem notification_retry_equiv (ev : Event) (cfg : Config) (pers : Pers)
    (draws : List Nat) (fs : FS)
    (h : "" ∉ persGet pers "notification_idle_prompt") :
    resolve_message ev cfg pers draws fs =
      resolve_message_noretry ev cfg pers draws fs := by
  rw [resolve_message, resolve_message_noretry]
  by_cases h1 : ev.hook_event_name.getD "" = "UserPromptSubmit"
  · rw [if_pos h1, if_pos h1]
  · rw [if_neg h1, if_neg h1]
    by_cases h2 : ev.hook_event_name.getD "" = "Stop"
    · rw [if_pos h2, if_pos h2]
    · rw [if_neg h2, if_neg h2]
      by_cases h3 : ev.hook_event_name.getD "" = "Notification"
      · rw [if_pos h3, if_pos h3]
        rcases pick_template_spec pers
            ("notification_" ++ ev.notification_type.getD "") draws with
          ⟨hmiss, hpick⟩ | ⟨t, hmem, hpick⟩
        · by_cases hn : ev.notification_type.getD "" = "idle_prompt"
          · have hmiss2 : persGet pers "notification_idle_prompt" = [] := by
              rw [hn] at hmiss
              exact hmiss
            simp [rmNotif, rmNotifNoRetry, pick_template, hmiss, hmiss2, hn, truthyO]
          · simp [rmNotif, rmNotifNoRetry, hpick, hn, truthyO]
        · by_cases hn : ev.notification_type.getD "" = "idle_prompt"
          · have ht : t ≠ "" := by
              intro he
              rw [hn] at hmem
              exact h (he ▸ hmem)
            have hpick2 : pick_template pers "notification_idle_prompt" draws =
                (some t, draws.tail) := by
              simpa [hn] using hpick
            simp [rmNotif, rmNotifNoRetry, hpick, hpick2, hn, truthyO, ht]
          · simp [rmNotif, rmNotifNoRetry, hpick, hn, truthyO]
      · rw [if_neg h3, if_neg h3]

/-- C1 counterexample: the sanitizer is not idempotent.  One pass over
"x to in" strips only the last dangling preposition ("in"), leaving
"x to", and a second pass strips "to" as well. -/
theorem clean_line_not_idempotent_cex :
    clean_line (clean_line "x to in") ≠ clean_line "x to in" ∧
    clean_line "x to in" = "x to" ∧ clean_line "x to" = "x" := by
  refine ⟨by decide, by decide, by decide⟩

/-- C1 (amended): sanitization is idempotent on already-clean input (a
fixed point of `_clean_line` stays fixed), and a second application
never lengthens the result; full idempotence fails (see the
counterexample). -/
theorem clean_line_idempotent_on_clean (x : String) :
    (clean_line x = x → clean_line (clean_line x) = clean_line x) ∧
    (clean_line (clean_line x)).length ≤ (clean_line x).length := by
  constructor
  · intro h
    rw [h]
    exact h
  · show (clean_lineL (clean_lineL x.data)).length ≤ (clean_lineL x.data).length
    exact clean_lineL_length _

theorem clean_line_idempotent_on_clean_witness :
    clean_line (clean_line "Hello there.") = clean_line "Hello there." ∧
    (clean_line (clean_line "Hello there.")).length ≤
      (clean_line "Hello there.").length :=
  ⟨(clean_line_idempotent_on_clean "Hello there.").1 (by decide),
   (clean_line_idempotent_on_clean "Hello there.").2⟩

/-- C2 counterexample: in the stutter-avoidance branch the code returns
`_take_sentences(summary)`, not the summary verbatim: a matching summary
of five sentences is cut to three. -/
theorem stop_stutter_cex :
    resolve_message (Event.mk (some "Stop") none none
        (some "Done. One. Two. Three. Four.") none none none)
      (Config.mk none) [] [] (fun _ => none) = .ok (some "Done. One. Two.") ∧
    "Done. One. Two." ≠ "Done. One. Two. Three. Four." := by
  refine ⟨by decide, by decide⟩

/-- C2 (amended): for a Stop event with no personality template for
"stop" and a non-empty summary whose lower-cased text starts with the
static template's fixed prefix (text before the placeholder, stripped,
trailing periods removed, lower-cased, non-empty), the final text is the
summary reduced to at most three sentences (`_take_sentences(summary)`),
rather than the substituted template. -/
theorem stop_stutter_takes_three (ev : Event) (cfg : Config) (pers : Pers)
    (draws : List Nat) (fs : FS) (s : String)
    (hhook : ev.hook_event_name.getD "" = "Stop")
    (hact : ev.stop_hook_active.getD false = false)
    (hmiss : persGet pers "stop" = [])
    (hsum : stopSummaryE ev fs = .ok s)
    (hne : s ≠ "")
    (hpfx : lowerS (String.mk (rstripDotsL (stripL (beforeFirstS
        (msgsGet (cfg.messages.getD defaultMessages) "stop" "{summary}")
        "{summary}").data))) ≠ "")
    (hstart : startsWithS (lowerS s)
      (lowerS (String.mk (rstripDotsL (stripL (beforeFirstS
        (msgsGet (cfg.messages.getD defaultMessages) "stop" "{summary}")
        "{summary}").data)))) = true) :
    resolve_message ev cfg pers draws fs = .ok (some (take_sentences s 3)) := by
  rw [resolve_message, if_neg (by rw [hhook]; decide), if_pos hhook]
  simp [rmStop, rmStopCfg, hact, hsum, pick_template, hmiss, hne, hpfx, hstart]

theorem stop_stutter_takes_three_witness :
    resolve_message (Event.mk (some "Stop") none none
        (some "Done, fixed the bug.") none none none)
      (Config.mk none) [] [] (fun _ => none) = .ok (some "Done, fixed the bug.") :=
  (stop_stutter_takes_three (Event.mk (some "Stop") none none
      (some "Done, fixed the bug.") none none none)
    (Config.mk none) [] [] (fun _ => none) "Done, fixed the bug."
    rfl rfl rfl (by decide) (by decide) (by decide) (by decide)).trans (by decide)

/-- C6: `_take_sentences(text, n)` returns the first `n` sentences of
the split joined with single spaces — hence re-splitting the result
yields at most `n` sentences — and returns the full trimmed text
unchanged when the text contains no sentence-ending punctuation. -/
theorem take_sentences_spec (text : String) (n : Nat) (hn : 1 ≤ n) :
    take_sentences text n = String.mk (joinSpL ((split_sentencesL text.data).take n)) ∧
    (split_sentences (take_sentences text n)).length ≤ n ∧
    ((∀ c ∈ text.data, isPunctC c = false) → take_sentences text n = stripS text) := by
  refine ⟨?_, ?_, ?_⟩
  · show String.mk (take_sentencesL text.data n) = _
    rw [take_sentencesL_join]
  · show ((split_sentencesL (take_sentencesL text.data n)).map String.mk).length ≤ n
    rw [List.length_map, split_take hn]
    exact List.length_take_le n _
  · intro hp
    show String.mk (take_sentencesL text.data n) = String.mk (stripL text.data)
    by_cases hst : stripL text.data = []
    · rw [take_sentencesL, split_sentencesL_no_punct hp, if_pos hst]
      simp
    · rw [take_sentencesL, split_sentencesL_no_punct hp, if_neg hst]
      rw [if_neg (by simp [hst])]
      rcases n with _ | n
      · cases hn
      · rw [List.take_succ_cons, List.take_nil]
        rfl

theorem take_sentences_spec_witness :
    take_sentences "One. Two. Three." 2 = "One. Two." ∧
    (split_sentences (take_sentences "One. Two. Three." 2)).length ≤ 2 :=
  ⟨((take_sentences_spec "One. Two. Three." 2 (by decide)).1).trans (by decide),
   (take_sentences_spec "One. Two. Three." 2 (by decide)).2.1⟩

/-- C3 counterexample: a transcript line that parses to a JSON value
that is not an object (here the empty array) makes the scan call
`entry.get` on a list, raising `AttributeError`, which the handler
(`OSError`, `JSONDecodeError`, `KeyError`) does not catch — the
function raises instead of returning the empty string. -/
theorem extract_summary_raises_cex :
    extract_summary (some [TLine.parsed (PyVal.list [])]) = .error .attributeError ∧
    ∀ s : String, (Except.error PyErr.attributeError : Except PyErr String) ≠ .ok s := by
  refine ⟨by decide, fun s h => by cases h⟩

/-- C3 (amended): `_extract_summary` returns a string and never raises
provided every parsed line is well-shaped (a JSON object; assistant
entries carry an object `message` whose `content` is a list of objects,
and a text block's `text` field, when present, is a string).  A missing
file yields `""`, and any malformed JSON line yields `""`.  For entries
of other shapes the function raises instead (see the counterexample). -/
theorem extract_summary_total_wellshaped (file : Option (List TLine))
    (hws : ∀ lines, file = some lines → ∀ l ∈ lines, wsLine l = true) :
    (∃ s, extract_summary file = .ok s) ∧
    (file = none → extract_summary file = .ok "") ∧
    (∀ lines, file = some lines → TLine.malformed ∈ lines →
      extract_summary file = .ok "") := by
  refine ⟨?_, ?_, ?_⟩
  · rcases hfe : file with _ | lines
    · exact ⟨"", rfl⟩
    · rcases (scanLines_ws (hws lines hfe) "").1 with hc | ⟨s2, hd⟩
      · exact ⟨"", by rw [extract_summary, hc]⟩
      · rw [extract_summary, hd]
        by_cases hs2 : s2 = ""
        · subst hs2
          exact ⟨"", by simp [pyTruthy]⟩
        · exact ⟨reduceLastText s2, by simp [pyTruthy, hs2]⟩
  · rintro rfl
    rfl
  · rintro lines rfl hm
    rw [extract_summary, (scanLines_ws (hws lines rfl) "").2 hm]

theorem extract_summary_total_wellshaped_witness :
    (∃ s, extract_summary (some [TLine.malformed]) = .ok s) ∧
    (some [TLine.malformed] = none →
      extract_summary (some [TLine.malformed]) = .ok "") ∧
    (∀ lines, some [TLine.malformed] = some lines → TLine.malformed ∈ lines →
      extract_summary (some [TLine.malformed]) = .ok "") :=
  extract_summary_total_wellshaped (some [TLine.malformed]) (by
    intro lines h l hl
    injection h with h2
    subst h2
    rw [List.mem_singleton] at hl
    subst hl
    rfl)

/-- C4 counterexample: the scan overwrites `last_text` per text block,
so with an assistant entry carrying two text blocks the pre-reduction
input is only the last block, not the concatenation the claim asserts. -/
theorem extract_summary_concat_cex :
    scanLines [TLine.parsed (PyVal.dict [("type", PyVal.str "assistant"),
        ("message", PyVal.dict [("content", PyVal.list [
          PyVal.dict [("type", PyVal.str "text"), ("text", PyVal.str "Alpha first block.")],
          PyVal.dict [("type", PyVal.str "text"), ("text", PyVal.str "Beta second block.")]])])])]
      (.str "") = .done (.str "Beta second block.") ∧
    extract_summary (some [TLine.parsed (PyVal.dict [("type", PyVal.str "assistant"),
        ("message", PyVal.dict [("content", PyVal.list [
          PyVal.dict [("type", PyVal.str "text"), ("text", PyVal.str "Alpha first block.")],
          PyVal.dict [("type", PyVal.str "text"), ("text", PyVal.str "Beta second block.")]])])])]) =
      .ok "Beta second block." ∧
    specConcatTextBlocks (PyVal.dict [("type", PyVal.str "assistant"),
        ("message", PyVal.dict [("content", PyVal.list [
          PyVal.dict [("type", PyVal.str "text"), ("text", PyVal.str "Alpha first block.")],
          PyVal.dict [("type", PyVal.str "text"), ("text", PyVal.str "Beta second block.")]])])]) =
      "Alpha first block.Beta second block." ∧
    "Beta second block." ≠ "Alpha first block.Beta second block." := by
  refine ⟨rfl, by decide, by decide, by decide⟩

/-- C4 (amended): for a transcript of well-shaped lines (with text
fields present) whose last assistant entry has at least one text block,
the scan's pre-reduction `last_text` is the content of the LAST text
block of that last assistant entry — later assistant entries
overwriting earlier ones — and `_extract_summary` returns that text
reduced by the speakable-line/sentence pipeline. -/
theorem extract_summary_last_text_block (lines : List TLine)
    (hws : ∀ l ∈ lines, wsLineStrict l = true)
    (hne : assistantEntries lines ≠ [])
    (htx : textBlockStrs ((assistantEntries lines).getLastD PyVal.null) ≠ []) :
    scanLines lines (.str "") =
      .done (.str ((textBlockStrs
        ((assistantEntries lines).getLastD PyVal.null)).getLastD "")) ∧
    extract_summary (some lines) =
      .ok (reduceLastText ((textBlockStrs
        ((assistantEntries lines).getLastD PyVal.null)).getLastD "")) := by
  have h1 := scanLines_strict hws ""
  rw [lastTextFold_last hne htx ""] at h1
  refine ⟨h1, ?_⟩
  rw [extract_summary, h1]
  by_cases hteq :
      (textBlockStrs ((assistantEntries lines).getLastD PyVal.null)).getLastD "" = ""
  · rw [hteq]
    rfl
  · simp [pyTruthy, hteq]
    intro h
    exact absurd h (by simpa using hteq)

theorem extract_summary_last_text_block_witness :
    scanLines [TLine.parsed (PyVal.dict [("type", PyVal.str "assistant"),
        ("message", PyVal.dict [("content", PyVal.list [
          PyVal.dict [("type", PyVal.str "text"), ("text", PyVal.str "Final answer text.")]])])])]
      (.str "") = .done (.str "Final answer text.") := by
  have h := extract_summary_last_text_block
    [TLine.parsed (PyVal.dict [("type", PyVal.str "assistant"),
      ("message", PyVal.dict [("content", PyVal.list [
        PyVal.dict [("type", PyVal.str "text"), ("text", PyVal.str "Final answer text.")]])])])]
    (by rintro l hl; rw [List.mem_singleton] at hl; subst hl; rfl)
    (by exact List.cons_ne_nil _ _) (by exact List.cons_ne_nil _ _)
  exact h.1.trans (by rfl)

theorem notification_retry_equiv_witness :
    resolve_message
        (Event.mk (some "Notification") none none none none
          (some "idle_prompt") (some "waiting"))
        (Config.mk none) [("notification_idle_prompt", ["Ping."])] [0]
        (fun _ => none) =
      resolve_message_noretry
        (Event.mk (some "Notification") none none none none
          (some "idle_prompt") (some "waiting"))
        (Config.mk none) [("notification_idle_prompt", ["Ping."])] [0]
        (fun _ => none) :=
  notification_retry_equiv _ _ _ _ _ (by decide)

/-- C5 counterexample: the empty string is reachable.  A Notification
event whose `message` field is present and empty, under the default
configuration (whose `notification_default` template is the bare
placeholder), resolves to `Some ""`, not to absent or a non-empty
string. -/
theorem resolve_message_empty_cex :
    resolve_message (Event.mk (some "Notification") none none none none none (some ""))
      (Config.mk none) [] [] (fun _ => none) = .ok (some "") ∧
    some "" ≠ (none : Option String) ∧ "" = "" := by
  refine ⟨by decide, by decide, rfl⟩

/-- C5 (amended): the result of `resolve_message` is absent or a
non-empty string, provided every effective static template and every
personality template keeps some non-whitespace character outside its
placeholder, the static table retains the `stop` and
`notification_default` keys, and transcript extraction always
succeeds.  Without the template proviso an empty string is reachable
(see the counterexample). -/
theorem resolve_message_nonempty (ev : Event) (cfg : Config) (pers : Pers)
    (draws : List Nat) (fs : FS)
    (hmsgs : ∀ kv, kv ∈ cfg.messages.getD defaultMessages →
      hasNW (removePh kv.1 kv.2).data = true)
    (hpers : ∀ kv, kv ∈ pers → ∀ t, t ∈ kv.2 → hasNW (removePh kv.1 t).data = true)
    (hstop : (cfg.messages.getD defaultMessages).find? (fun kv => kv.1 = "stop") ≠ none)
    (hdflt : (cfg.messages.getD defaultMessages).find?
      (fun kv => kv.1 = "notification_default") ≠ none)
    (hfs : ∀ p, ∃ s, extract_summary (fs p) = .ok s) :
    ∃ r, resolve_message ev cfg pers draws fs = .ok r ∧
      (r = none ∨ ∃ s, r = some s ∧ s ≠ "") := by
  rw [resolve_message]
  by_cases h1 : ev.hook_event_name.getD "" = "UserPromptSubmit"
  · rw [if_pos h1]
    obtain ⟨s, hs, hne⟩ := rmPrompt_ne ev _ pers draws hmsgs hpers
    exact ⟨some s, by rw [hs], Or.inr ⟨s, rfl, hne⟩⟩
  · rw [if_neg h1]
    by_cases h2 : ev.hook_event_name.getD "" = "Stop"
    · rw [if_pos h2]
      rcases rmStop_ne ev _ pers draws fs hmsgs hpers hstop hfs with h | ⟨s, hs, hne⟩
      · exact ⟨none, h, Or.inl rfl⟩
      · exact ⟨some s, hs, Or.inr ⟨s, rfl, hne⟩⟩
    · rw [if_neg h2]
      by_cases h3 : ev.hook_event_name.getD "" = "Notification"
      · rw [if_pos h3]
        obtain ⟨s, hs, hne⟩ := rmNotif_ne ev _ pers draws hmsgs hpers hdflt
        exact ⟨some s, by rw [hs], Or.inr ⟨s, rfl, hne⟩⟩
      · rw [if_neg h3]
        exact ⟨none, rfl, Or.inl rfl⟩

theorem resolve_message_nonempty_witness :
    ∃ r, resolve_message (Event.mk (some "Notification") none none none none none (some ""))
        (Config.mk (some [("stop", "Done. {summary}"),
          ("notification_default", "Note: {message}"), ("prompt_submit", "On it.")]))
        [] [] (fun _ => none) = .ok r ∧
      (r = none ∨ ∃ s, r = some s ∧ s ≠ "") :=
  resolve_message_nonempty
    (Event.mk (some "Notification") none none none none none (some ""))
    (Config.mk (some [("stop", "Done. {summary}"),
      ("notification_default", "Note: {message}"), ("prompt_submit", "On it.")]))
    [] [] (fun _ => none)
    (by decide)
    (by intro kv h; cases h)
    (by decide)
    (by decide)
    (fun p => ⟨"", rfl⟩)

end Notify
